import Mathlib

/-!
# Inference gateway: plugin dependency graph and weighted model draw

A shallow embedding of

* `pkg/epp/datalayer/framework/plugin.go` (`validateKeysAndTypes`, `produceDataGraph`,
  `DependencyNode`, `MetricsDataSource`, `DataConsumingPlugin`), and
* `pkg/ext-proc/backend/datastore.go` (`RandomWeightedDraw`, `IsCritical`, `NewK8sDataStore`,
  `WithPods`, `setInferencePool`, `getInferencePool`, `HasSynced`, `GetPodIPs`),

followed by theorems about them.

Modelling conventions.

* A Go `map[string]V` is an association list with pairwise distinct keys (`GoMap V`); the nil
  map and the empty map are told apart with `Option` where the program can observe the
  difference.
* `for k, v := range m` visits the entries of `m` in an order the language leaves open.  Every
  such loop visits `ρ.order m`, where `ρ : RangeOrder` is a parameter; results are proved for
  every `ρ` that returns a permutation of its argument (`RangeOrder.Fair`).
* A value of type `any` is only ever inspected through `reflect.TypeOf`, so it is represented
  by its dynamic type (`GoType`).
* `*DependencyNode` is an index into a heap of nodes (`List DependencyNode`), in allocation
  order.
* The two `for len(sourceAdded) < ...` loops carry a fuel argument; `none` means the fuel ran
  out.  `produceDataGraph` supplies one unit of fuel per plugin.
-/

namespace Gateway

/-! ## Go maps -/

/-- A Go map with string keys: the list of its entries.  Well-formed maps have distinct keys. -/
abbrev GoMap (V : Type) := List (String × V)

/-- The keys of a map. -/
def mapKeys {V : Type} (m : GoMap V) : List String := m.map Prod.fst

/-- A map is well formed when no key occurs twice. -/
def MapWF {V : Type} (m : GoMap V) : Prop := (mapKeys m).Nodup

/-- The Go expression `v, ok := m[k]`: `some v` when `ok`. -/
def mapGet {V : Type} : GoMap V → String → Option V
  | [], _ => none
  | (k', v) :: m, k => if k' = k then some v else mapGet m k

/-- The Go expression `_, ok := m[k]`. -/
def mapHas {V : Type} (m : GoMap V) (k : String) : Bool := (mapGet m k).isSome

/-- The Go statement `m[k] = v`: overwrite the entry of `k`, or add one. -/
def mapSet {V : Type} : GoMap V → String → V → GoMap V
  | [], k, v => [(k, v)]
  | (k', v') :: m, k, v => if k' = k then (k, v) :: m else (k', v') :: mapSet m k v

/-- The entries of a possibly nil map; ranging over a nil map visits nothing. -/
def entries {V : Type} (m : Option (GoMap V)) : GoMap V := m.getD []

/-- The order in which a `range` loop visits the entries of a map. -/
structure RangeOrder where
  /-- The entries of the map in visiting order. -/
  order : {V : Type} → GoMap V → GoMap V

/-- A range loop visits every entry exactly once. -/
def RangeOrder.Fair (ρ : RangeOrder) : Prop :=
  ∀ (V : Type) (m : GoMap V), (ρ.order m).Perm m

/-- The range order that visits the entries as they are stored. -/
def RangeOrder.stored : RangeOrder := ⟨fun m => m⟩

/-! ## Plugins (plugin.go, lines 8-62) -/

/-- The dynamic type of an `any` value, as `reflect.TypeOf` reports it. -/
inductive GoType where
  | nilType
  | float32
  | int
  | loraInfo
  | named (name : String)
  deriving DecidableEq, Repr

/-- The Go type `DataSourceType` with its two constants. -/
inductive DataSourceType where
  | PoolLevel
  | RequestSpecific
  deriving DecidableEq, Repr

/-- A value of the interface `DataSourcePlugin`: what its four methods return. -/
structure DataSourcePlugin where
  Name : String
  DataSourceType : DataSourceType
  Consumes : Option (GoMap GoType)
  Produces : Option (GoMap GoType)
  deriving DecidableEq, Repr

/-- The struct `MetricsDataSource` seen through the interface. -/
def MetricsDataSource : DataSourcePlugin where
  Name := "metrics-data-source"
  DataSourceType := .PoolLevel
  Consumes := none
  Produces := some [("lora-info", .loraInfo), ("kv-cache-utilization", .float32),
    ("queued-requests", .int)]

/-- The struct `DataConsumingPlugin`: it has no field. -/
structure DataConsumingPlugin where
  deriving DecidableEq, Repr

/-- The method `(*DataConsumingPlugin).Name`. -/
def DataConsumingPlugin.Name (_ : DataConsumingPlugin) : String := "scoring-plugin"

/-- The method `(*DataConsumingPlugin).Consumes`. -/
def DataConsumingPlugin.Consumes (_ : DataConsumingPlugin) : Option (GoMap GoType) :=
  some [("kv-cache-utilization", .float32)]

/-! ## Errors -/

/-- The errors of `validateKeysAndTypes` and `produceDataGraph`, one constructor per
`fmt.Errorf` call, with the key the message names. -/
inductive BuildError where
  /-- "plugins expecting different types for the same key" (lines 174 and 185). -/
  | conflictingTypes (key : String)
  /-- "two data sources producing the same key" (line 191). -/
  | duplicateProducer (key : String)
  /-- "a data source is consuming data that is not produced by any data source" (line 200). -/
  | unsatisfiedDependency (key : String)
  /-- "Data type produced does not match the expected data type consumed" (line 203). -/
  | typeMismatch (key : String)
  /-- "circular or unsatisfiable dependencies detected among data source plugins" (line 118). -/
  | circularSources
  /-- "circular or unsatisfiable dependencies detected among data consuming plugins"
  (line 157). -/
  | circularConsumers
  deriving DecidableEq, Repr

/-! ## validateKeysAndTypes (plugin.go, lines 164-208) -/

/-- The loop body of lines 169-176 and 180-187 over the entries of one `Consumes()` map:
record the type of a key seen for the first time, fail when it differs from the recorded
one. -/
def consumeLoop : GoMap GoType → GoMap GoType → Except BuildError (GoMap GoType)
  | [], dataConsumed => .ok dataConsumed
  | (k, v) :: rest, dataConsumed =>
    match mapGet dataConsumed k with
    | none => consumeLoop rest (mapSet dataConsumed k v)
    | some t => if t ≠ v then .error (.conflictingTypes k) else consumeLoop rest dataConsumed

/-- The loop of lines 188-194 over the entries of one `Produces()` map. -/
def produceLoop : GoMap GoType → GoMap GoType → Except BuildError (GoMap GoType)
  | [], dataProduced => .ok dataProduced
  | (k, v) :: rest, dataProduced =>
    if mapHas dataProduced k then .error (.duplicateProducer k)
    else produceLoop rest (mapSet dataProduced k v)

/-- The loop of lines 168-177 over the scoring plugins. -/
def scoringLoop (ρ : RangeOrder) :
    List DataConsumingPlugin → GoMap GoType → Except BuildError (GoMap GoType)
  | [], dataConsumed => .ok dataConsumed
  | sp :: rest, dataConsumed =>
    match consumeLoop (ρ.order (entries sp.Consumes)) dataConsumed with
    | .error e => .error e
    | .ok dataConsumed => scoringLoop ρ rest dataConsumed

/-- The loop of lines 179-195 over the data producing plugins; the state is
`(dataConsumed, dataProduced)`. -/
def producerLoop (ρ : RangeOrder) :
    List DataSourcePlugin → GoMap GoType × GoMap GoType →
      Except BuildError (GoMap GoType × GoMap GoType)
  | [], st => .ok st
  | dsp :: rest, (dataConsumed, dataProduced) =>
    match consumeLoop (ρ.order (entries dsp.Consumes)) dataConsumed with
    | .error e => .error e
    | .ok dataConsumed =>
      match produceLoop (ρ.order (entries dsp.Produces)) dataProduced with
      | .error e => .error e
      | .ok dataProduced => producerLoop ρ rest (dataConsumed, dataProduced)

/-- The loop of lines 197-205 over the entries of `dataConsumed`. -/
def checkLoop (dataProduced : GoMap GoType) : GoMap GoType → Except BuildError Unit
  | [] => .ok ()
  | (k, v) :: rest =>
    match mapGet dataProduced k with
    | none => .error (.unsatisfiedDependency k)
    | some t => if t ≠ v then .error (.typeMismatch k) else checkLoop dataProduced rest

/-- The function `validateKeysAndTypes`; `.ok ()` is the nil error. -/
def validateKeysAndTypes (ρ : RangeOrder) (dataProducingPlugins : List DataSourcePlugin)
    (scoringPlugins : List DataConsumingPlugin) : Except BuildError Unit :=
  match scoringLoop ρ scoringPlugins [] with
  | .error e => .error e
  | .ok dataConsumed =>
    match producerLoop ρ dataProducingPlugins (dataConsumed, []) with
    | .error e => .error e
    | .ok (dataConsumed, dataProduced) => checkLoop dataProduced (ρ.order dataConsumed)

/-! ## produceDataGraph (plugin.go, lines 64-162 and 210-214) -/

/-- A `*DependencyNode`: the index of the node in the heap. -/
abbrev NodePtr := Nat

/-- The struct `DependencyNode`.  `Consumes` and `Produces` may be nil; `Dependents` is
always made by `make`. -/
structure DependencyNode where
  Consumes : Option (GoMap NodePtr)
  Produces : Option (GoMap GoType)
  Dependents : GoMap NodePtr
  deriving DecidableEq, Repr

/-- The local state of `produceDataGraph`: the nodes allocated so far, `baseSources` and
`sourceAdded`. -/
structure BuildState where
  heap : List DependencyNode
  baseSources : List NodePtr
  sourceAdded : GoMap NodePtr
  deriving DecidableEq, Repr

/-- The Go expression `_, ok := source.Produces[dep]` for a node pointer `source`. -/
def producesKey (heap : List DependencyNode) (source : NodePtr) (dep : String) : Bool :=
  match heap.get? source with
  | none => false
  | some node => mapHas (entries node.Produces) dep

/-- The inner loop of lines 98-105 (and 137-144) for one key `dep`, over the entries of
`sourceAdded`; the state is `(depsSatisfied, node.Consumes)`.  A source that does not
produce `dep` clears `depsSatisfied` and leaves the loop. -/
def scanSources (heap : List DependencyNode) (dep : String) :
    GoMap NodePtr → Bool × GoMap NodePtr → Bool × GoMap NodePtr
  | [], acc => acc
  | (_, source) :: rest, (depsSatisfied, consumes) =>
    if producesKey heap source dep then
      scanSources heap dep rest (depsSatisfied, mapSet consumes dep source)
    else (false, consumes)

/-- The loop of lines 97-106 (and 136-145) over the keys of `Consumes()`, starting from
`depsSatisfied := true` and an empty `node.Consumes`. -/
def resolveDeps (ρ : RangeOrder) (st : BuildState) (consumes : GoMap GoType) :
    Bool × GoMap NodePtr :=
  (ρ.order consumes).foldl
    (fun acc dep => scanSources st.heap dep.1 (ρ.order st.sourceAdded) acc) (true, [])

/-- The statement `source.Dependents[name] = &node` on the heap. -/
def addDependent (name : String) (node : NodePtr) :
    List DependencyNode → NodePtr → List DependencyNode
  | [], _ => []
  | n :: heap, 0 => { n with Dependents := mapSet n.Dependents name node } :: heap
  | n :: heap, source + 1 => n :: addDependent name node heap source

/-- Lines 82-88: allocate a root node and record it. -/
def promoteRoot (st : BuildState) (name : String) (produces : Option (GoMap GoType)) :
    BuildState :=
  let node : DependencyNode := { Consumes := none, Produces := produces, Dependents := [] }
  { heap := st.heap ++ [node]
    baseSources := st.baseSources ++ [st.heap.length]
    sourceAdded := mapSet st.sourceAdded name st.heap.length }

/-- Lines 107-114 (and 146-153) when `depsSatisfied` holds: register the new node with each
of its sources, then record it.  The node's address is the next free heap index. -/
def promoteDependent (ρ : RangeOrder) (st : BuildState) (name : String)
    (consumes : GoMap NodePtr) (produces : Option (GoMap GoType)) : BuildState :=
  let node : DependencyNode :=
    { Consumes := some consumes, Produces := produces, Dependents := [] }
  let ptr := st.heap.length
  let heap := (ρ.order consumes).foldl (fun h src => addDependent name ptr h src.2) st.heap
  { heap := heap ++ [node]
    baseSources := st.baseSources ++ [ptr]
    sourceAdded := mapSet st.sourceAdded name ptr }

/-- The body of the loop of line 76 for one data producing plugin (lines 77-115). -/
def sourceStep (ρ : RangeOrder) (st : BuildState) (dsp : DataSourcePlugin) : BuildState :=
  if mapHas st.sourceAdded dsp.Name then st
  else if dsp.Consumes = none ∨ (entries dsp.Consumes).length = 0 then
    promoteRoot st dsp.Name dsp.Produces
  else
    let r := resolveDeps ρ st (entries dsp.Consumes)
    if r.1 then promoteDependent ρ st dsp.Name r.2 dsp.Produces else st

/-- The body of the loop of line 125 for one data consuming plugin (lines 126-154). -/
def consumerStep (ρ : RangeOrder) (st : BuildState) (dcp : DataConsumingPlugin) : BuildState :=
  if mapHas st.sourceAdded dcp.Name then st
  else
    let r := resolveDeps ρ st (entries dcp.Consumes)
    if r.1 then promoteDependent ρ st dcp.Name r.2 none else st

/-- The loop of lines 74-120.  `none`: the fuel ran out. -/
def sourceLoop (ρ : RangeOrder) (dataProducingPlugins : List DataSourcePlugin) :
    Nat → BuildState → Option (Except BuildError BuildState)
  | 0, st =>
    if st.sourceAdded.length < dataProducingPlugins.length then none else some (.ok st)
  | fuel + 1, st =>
    if st.sourceAdded.length < dataProducingPlugins.length then
      let st' := dataProducingPlugins.foldl (sourceStep ρ) st
      if st'.sourceAdded.length = st.sourceAdded.length then some (.error .circularSources)
      else sourceLoop ρ dataProducingPlugins fuel st'
    else some (.ok st)

/-- The loop of lines 123-159.  `none`: the fuel ran out. -/
def consumerLoop (ρ : RangeOrder) (dataProducingPlugins : List DataSourcePlugin)
    (dataConsumingPlugins : List DataConsumingPlugin) :
    Nat → BuildState → Option (Except BuildError BuildState)
  | 0, st =>
    if st.sourceAdded.length < dataProducingPlugins.length + dataConsumingPlugins.length then
      none
    else some (.ok st)
  | fuel + 1, st =>
    if st.sourceAdded.length < dataProducingPlugins.length + dataConsumingPlugins.length then
      let st' := dataConsumingPlugins.foldl (consumerStep ρ) st
      if st'.sourceAdded.length = st.sourceAdded.length then some (.error .circularConsumers)
      else consumerLoop ρ dataProducingPlugins dataConsumingPlugins fuel st'
    else some (.ok st)

/-- What `produceDataGraph` returns without error: the list of node pointers, and the heap
they point into. -/
structure DataGraph where
  nodes : List NodePtr
  heap : List DependencyNode
  deriving DecidableEq, Repr

/-- The function `produceDataGraph`.  `some (.error e)` is `(nil, e)`, `some (.ok g)` is
`(g.nodes, nil)`. -/
def produceDataGraph (ρ : RangeOrder) (dataProducingPlugins : List DataSourcePlugin)
    (dataConsumingPlugins : List DataConsumingPlugin) : Option (Except BuildError DataGraph) :=
  match validateKeysAndTypes ρ dataProducingPlugins dataConsumingPlugins with
  | .error e => some (.error e)
  | .ok () =>
    match sourceLoop ρ dataProducingPlugins dataProducingPlugins.length
        { heap := [], baseSources := [], sourceAdded := [] } with
    | none => none
    | some (.error e) => some (.error e)
    | some (.ok st) =>
      match consumerLoop ρ dataProducingPlugins dataConsumingPlugins
          dataConsumingPlugins.length st with
      | none => none
      | some (.error e) => some (.error e)
      | some (.ok st) => some (.ok { nodes := st.baseSources, heap := st.heap })

/-! ## RandomWeightedDraw (datastore.go, lines 86-106) -/

/-- Modelled from the spec: the type `v1alpha1.TargetModel` is declared outside the sources at
hand.  It is a named variant with an integer weight; the fields are the two that
`RandomWeightedDraw` reads, `model.Name` and `*model.Weight`, the latter a `*int32` (it is
added to an `int32`), nil being `none`. -/
structure TargetModel where
  Name : String
  Weight : Option Int
  deriving DecidableEq, Repr

/-- Modelled from the spec: the type `v1alpha1.InferenceModelSpec` is declared outside the
sources at hand.  The fields are the two the code reads: the list `TargetModels` and the
pointer `Criticality` to a string-valued criticality, nil being `none`. -/
structure InferenceModelSpec where
  TargetModels : List TargetModel
  Criticality : Option String
  deriving DecidableEq, Repr

/-- Modelled from the spec: the type `v1alpha1.InferenceModel` is declared outside the sources
at hand; a named model with its spec. -/
structure InferenceModel where
  Name : String
  Spec : InferenceModelSpec
  deriving DecidableEq, Repr

/-- The two run-time panics `RandomWeightedDraw` can raise. -/
inductive Panic where
  /-- Dereferencing a nil `Weight` pointer. -/
  | nilDereference
  /-- The panic of `(*rand.Rand).Int31n` on an argument `n <= 0`: "invalid argument to
  Int31n". -/
  | invalidArgumentToInt31n
  deriving DecidableEq, Repr

/-- The value of an `int32` computation: the result wraps around modulo `2^32`. -/
def wrapInt32 (x : Int) : Int := (x + 2147483648) % 4294967296 - 2147483648

/-- The part of `math/rand` the function uses, as a parameter: `int31n s n` is what
`rand.New(rand.NewSource(s)).Int31n(n)` returns for `n > 0`, the first draw of a generator
seeded with `s`. -/
structure Rand where
  int31n : Int → Int → Int

/-- The contract of `Int31n`: for `n > 0` the draw lies in `[0, n)`. -/
def Rand.Valid (rng : Rand) : Prop :=
  ∀ s n : Int, 0 < n → 0 ≤ rng.int31n s n ∧ rng.int31n s n < n

/-- A sample generator that meets the contract of `Int31n`: the first draw of the generator
seeded with `s` is `s mod n`. -/
def sampleRand : Rand := ⟨fun s n => s % n⟩

/-- The loop of lines 94-96: add the weights to the `int32` variable `weights`. -/
def sumWeights : List TargetModel → Int → Except Panic Int
  | [], weights => .ok weights
  | model :: rest, weights =>
    match model.Weight with
    | none => .error .nilDereference
    | some w => sumWeights rest (wrapInt32 (weights + w))

/-- The loop of lines 99-104 and the final `return ""`: walk the variants in declaration
order, return the first one whose weight exceeds the running draw, else subtract its
weight. -/
def weightedWalk : List TargetModel → Int → Except Panic String
  | [], _ => .ok ""
  | model :: rest, randomVal =>
    match model.Weight with
    | none => .error .nilDereference
    | some w =>
      if randomVal < w then .ok model.Name else weightedWalk rest (wrapInt32 (randomVal - w))

/-- The function `RandomWeightedDraw`.  `globalDraw` is the value `rand.Int63()` returns from
the process-wide generator at line 89; it seeds the source unless `seed > 0`. -/
def RandomWeightedDraw (rng : Rand) (globalDraw : Int) (model : InferenceModel) (seed : Int) :
    Except Panic String :=
  let source := if seed > 0 then seed else globalDraw
  match sumWeights model.Spec.TargetModels 0 with
  | .error p => .error p
  | .ok weights =>
    if weights ≤ 0 then .error .invalidArgumentToInt31n
    else weightedWalk model.Spec.TargetModels (rng.int31n source weights)

/-- The weight of a variant, 0 when the pointer is nil. -/
def weightOf (model : TargetModel) : Int := model.Weight.getD 0

/-- The sum of the weights of a list of variants, as an integer. -/
def totalWeight (tms : List TargetModel) : Int := (tms.map weightOf).sum

/-- The cumulative weight of the first `n` variants. -/
def cumWeight (tms : List TargetModel) (n : Nat) : Int := totalWeight (tms.take n)

/-- Every `Weight` pointer is set and points to a non-negative `int32`. -/
def WeightsSet (tms : List TargetModel) : Prop :=
  ∀ m ∈ tms, ∃ w : Int, m.Weight = some w ∧ 0 ≤ w ∧ w < 2147483648

/-- The variant at index `i` is the first one in declaration order whose cumulative weight
exceeds `r`. -/
def IsFirstExceeding (tms : List TargetModel) (r : Int) (i : Nat) : Prop :=
  i < tms.length ∧ r < cumWeight tms (i + 1) ∧ ∀ j < i, cumWeight tms (j + 1) ≤ r

instance (tms : List TargetModel) (r : Int) (i : Nat) : Decidable (IsFirstExceeding tms r i) := by
  unfold IsFirstExceeding
  infer_instance

/-- The model with the variants `(a, 1)` and `(b, 3)`. -/
def sampleModel : InferenceModel :=
  ⟨"m", ⟨[⟨"a", some 1⟩, ⟨"b", some 3⟩], none⟩⟩

/-- A model without target variants. -/
def emptyModel : InferenceModel := ⟨"m", ⟨[], none⟩⟩

/-- A model whose only variant has weight 0. -/
def zeroModel : InferenceModel := ⟨"m", ⟨[⟨"a", some 0⟩], none⟩⟩

/-- A model whose only variant has the empty name and weight 1. -/
def unnamedModel : InferenceModel := ⟨"m", ⟨[⟨"", some 1⟩], none⟩⟩

/-- The model with the variants `(a, 1)` and `(b, 1)`. -/
def evenModel : InferenceModel :=
  ⟨"m", ⟨[⟨"a", some 1⟩, ⟨"b", some 1⟩], none⟩⟩

/-! ## IsCritical and the datastore (datastore.go, lines 14-84 and 108-113) -/

/-- Modelled from the spec: the constant `v1alpha1.Critical` is declared outside the sources
at hand; it is the value of the criticality type that marks a model as critical. -/
def Critical : String := "Critical"

/-- The function `IsCritical` (lines 108-113). -/
def IsCritical (model : InferenceModel) : Bool :=
  match model.Spec.Criticality with
  | none => false
  | some c => if c = Critical then true else false

/-- The struct `InferencePoolSpec` of `inferencepool_types.go`. -/
structure InferencePoolSpec where
  Selector : GoMap String
  TargetPortNumber : Int
  deriving DecidableEq, Repr

/-- The struct `InferencePool` of `inferencepool_types.go`, with the name of its object
metadata and its spec. -/
structure InferencePool where
  Name : String
  Spec : InferencePoolSpec
  deriving DecidableEq, Repr

/-- Modelled from the spec: the struct `Pod` of the package is declared outside the sources at
hand; a backend is a named network address. -/
structure Pod where
  Name : String
  Address : String
  deriving DecidableEq, Repr

/-- Modelled from the spec: the struct `PodMetrics` of the package is declared outside the
sources at hand; the field read here is `Pod`, the telemetry snapshot is left out. -/
structure PodMetrics where
  Pod : Pod
  deriving DecidableEq, Repr

/-- The struct `corev1.Pod` of the Kubernetes API, with the one field `GetPodIPs` reads,
`Status.PodIP`. -/
structure CorePod where
  PodIP : String
  deriving DecidableEq, Repr

/-- A value of type `any` as a `sync.Map` of the datastore holds it: its dynamic type and its
value.  Pointers are `Option`s, nil being `none`. -/
inductive AnyValue where
  | bool (b : Bool)
  | string (s : String)
  | pod (p : Pod)
  | corePodPtr (p : Option CorePod)
  | inferenceModelPtr (m : Option InferenceModel)
  deriving DecidableEq, Repr

/-- A `sync.Map`: the list of its entries, with pairwise distinct keys. -/
abbrev SyncMap := List (AnyValue × AnyValue)

/-- The method `(*sync.Map).Store`: overwrite the entry of the key, or add one. -/
def syncStore : SyncMap → AnyValue → AnyValue → SyncMap
  | [], k, v => [(k, v)]
  | (k', v') :: m, k, v => if k' = k then (k, v) :: m else (k', v') :: syncStore m k v

/-- The order in which `(*sync.Map).Range` visits the entries of a map. -/
structure SyncOrder where
  /-- The entries of the map in visiting order. -/
  order : SyncMap → SyncMap

/-- A call of `Range` whose callback always returns true visits every entry exactly once. -/
def SyncOrder.Fair (σ : SyncOrder) : Prop := ∀ m : SyncMap, (σ.order m).Perm m

/-- The order that visits the entries of a `sync.Map` as they are stored. -/
def SyncOrder.stored : SyncOrder := ⟨fun m => m⟩

/-- The run-time panics of the datastore functions. -/
inductive StorePanic where
  /-- Dereferencing a nil pointer. -/
  | nilDereference
  /-- A failed type assertion `x.(T)`: "interface conversion". -/
  | typeAssertion
  deriving DecidableEq, Repr

/-- The error of `getInferencePool`: "InferencePool is not initialized in data store". -/
inductive StoreError where
  | notInitialized
  deriving DecidableEq, Repr

/-- The struct `K8sDatastore`; the mutex `poolMu` has no state in a sequential run. -/
structure K8sDatastore where
  inferencePool : Option InferencePool
  InferenceModels : SyncMap
  pods : SyncMap
  deriving DecidableEq, Repr

/-- The type `K8sDatastoreOption`, a function that updates the store or panics. -/
abbrev K8sDatastoreOption := K8sDatastore → Except StorePanic K8sDatastore

/-- The loop of lines 41-43: store `true` under the key `pod.Pod` for each element of
`pods`. -/
def storePods : List (Option PodMetrics) → SyncMap → Except StorePanic SyncMap
  | [], m => .ok m
  | none :: _, _ => .error .nilDereference
  | some pod :: rest, m => storePods rest (syncStore m (.pod pod.Pod) (.bool true))

/-- The function `WithPods` (lines 38-45); the elements of `pods` are pointers. -/
def WithPods (pods : List (Option PodMetrics)) : K8sDatastoreOption := fun store =>
  match storePods pods [] with
  | .error p => .error p
  | .ok m => .ok { store with pods := m }

/-- The loop of lines 20-22: apply the options in order. -/
def applyOptions : List K8sDatastoreOption → K8sDatastore → Except StorePanic K8sDatastore
  | [], store => .ok store
  | opt :: rest, store =>
    match opt store with
    | .error p => .error p
    | .ok store => applyOptions rest store

/-- The function `NewK8sDataStore` (lines 14-24). -/
def NewK8sDataStore (options : List K8sDatastoreOption) : Except StorePanic K8sDatastore :=
  applyOptions options { inferencePool := none, InferenceModels := [], pods := [] }

/-- The method `setInferencePool` (lines 47-51); `pool` is a pointer. -/
def setInferencePool (ds : K8sDatastore) (pool : Option InferencePool) : K8sDatastore :=
  { ds with inferencePool := pool }

/-- The method `HasSynced` (lines 80-84). -/
def HasSynced (ds : K8sDatastore) : Bool := ds.inferencePool.isSome

/-- The method `getInferencePool` (lines 53-60): `.error e` is `(nil, e)`, `.ok p` is
`(p, nil)`. -/
def getInferencePool (ds : K8sDatastore) : Except StoreError (Option InferencePool) :=
  if !HasSynced ds then .error .notInitialized else .ok ds.inferencePool

/-- The callback of lines 64-67 over the visited entries: assert that the value is a
`*corev1.Pod` and append its `Status.PodIP`. -/
def collectPodIPs : SyncMap → List String → Except StorePanic (List String)
  | [], ips => .ok ips
  | (_, pod) :: rest, ips =>
    match pod with
    | .corePodPtr (some p) => collectPodIPs rest (ips ++ [p.PodIP])
    | .corePodPtr none => .error .nilDereference
    | _ => .error .typeAssertion

/-- The method `GetPodIPs` (lines 62-69); the nil slice is the empty list. -/
def GetPodIPs (σ : SyncOrder) (ds : K8sDatastore) : Except StorePanic (List String) :=
  collectPodIPs (σ.order ds.pods) []

/-- A pool. -/
def samplePool : InferencePool := ⟨"pool", ⟨[("app", "vllm")], 8000⟩⟩

/-- Another pool. -/
def otherPool : InferencePool := ⟨"other", ⟨[("app", "vllm")], 9000⟩⟩

/-- A backend. -/
def samplePod : PodMetrics := ⟨⟨"pod1", "10.0.0.1"⟩⟩

/-! ## What a plugin set declares -/

/-- Every `(key, type)` pair some plugin declares in `Consumes()`: the scoring plugins first,
then the data producing plugins. -/
def declaredConsumed (dataProducingPlugins : List DataSourcePlugin)
    (scoringPlugins : List DataConsumingPlugin) : GoMap GoType :=
  scoringPlugins.flatMap (fun sp => entries sp.Consumes) ++
    dataProducingPlugins.flatMap (fun dsp => entries dsp.Consumes)

/-- Every `(key, type)` pair some data producing plugin declares in `Produces()`. -/
def declaredProduced (dataProducingPlugins : List DataSourcePlugin) : GoMap GoType :=
  dataProducingPlugins.flatMap (fun dsp => entries dsp.Produces)

/-- The key `k` is consumed by some plugin and produced by none. -/
def UnmetKey (ps : List DataSourcePlugin) (cs : List DataConsumingPlugin) (k : String) : Prop :=
  k ∈ mapKeys (declaredConsumed ps cs) ∧ k ∉ mapKeys (declaredProduced ps)

/-- Some plugin consumes a key that no producer produces. -/
def HasUnmetKey (ps : List DataSourcePlugin) (cs : List DataConsumingPlugin) : Prop :=
  ∃ k, UnmetKey ps cs k

/-- The key `k` is declared twice in the `Produces()` maps. -/
def ProducedTwice (ps : List DataSourcePlugin) (k : String) : Prop :=
  2 ≤ (mapKeys (declaredProduced ps)).count k

/-- No key is declared twice in the `Produces()` maps. -/
def DistinctProducedKeys (ps : List DataSourcePlugin) : Prop :=
  (mapKeys (declaredProduced ps)).Nodup

/-- Two different producers (two positions of the list) declare the same key in
`Produces()`. -/
def SharedProducedKey (ps : List DataSourcePlugin) : Prop :=
  ∃ i j p q k, i < j ∧ ps.get? i = some p ∧ ps.get? j = some q ∧
    k ∈ mapKeys (entries p.Produces) ∧ k ∈ mapKeys (entries q.Produces)

/-- Two plugins declare different types for the consumed key `k`. -/
def ConsumedTypesDifferAt (ps : List DataSourcePlugin) (cs : List DataConsumingPlugin)
    (k : String) : Prop :=
  ∃ t v, (k, t) ∈ declaredConsumed ps cs ∧ (k, v) ∈ declaredConsumed ps cs ∧ t ≠ v

/-- Two plugins declare different types for one consumed key. -/
def ConsumedTypesDiffer (ps : List DataSourcePlugin) (cs : List DataConsumingPlugin) : Prop :=
  ∃ k, ConsumedTypesDifferAt ps cs k

/-- A plugin declares the consumed key `k` with a type other than the one a producer of `k`
declares. -/
def ProducedTypeDiffersAt (ps : List DataSourcePlugin) (cs : List DataConsumingPlugin)
    (k : String) : Prop :=
  ∃ t v, (k, t) ∈ declaredProduced ps ∧ (k, v) ∈ declaredConsumed ps cs ∧ t ≠ v

/-- A plugin declares a consumed key with a type other than the one a producer of the key
declares. -/
def ProducedTypeDiffers (ps : List DataSourcePlugin) (cs : List DataConsumingPlugin) : Prop :=
  ∃ k, ProducedTypeDiffersAt ps cs k

/-- The plugin `p` consumes a key that the plugin `q` produces. -/
def DependsOn (p q : DataSourcePlugin) : Prop :=
  ∃ k ∈ mapKeys (entries p.Consumes), k ∈ mapKeys (entries q.Produces)

instance (p q : DataSourcePlugin) : Decidable (DependsOn p q) := by
  unfold DependsOn
  infer_instance

/-- The producers can be listed so that nobody depends on itself or on a later plugin: the
consumes/produces relation has no cycle. -/
def Acyclic (ps : List DataSourcePlugin) : Prop :=
  ∃ l : List DataSourcePlugin, l.Perm ps ∧ l.Pairwise (fun p q => ¬ DependsOn p q) ∧
    ∀ p ∈ l, ¬ DependsOn p p

/-- Every consumed key is produced, with the type the consumer declares, and no key is
produced twice. -/
def WellTyped (ps : List DataSourcePlugin) (cs : List DataConsumingPlugin) : Prop :=
  (∀ kv ∈ declaredConsumed ps cs, kv ∈ declaredProduced ps) ∧ DistinctProducedKeys ps

/-- The invariant of the two promotion loops: `baseSources` lists every allocated node in
allocation order, `sourceAdded` has one entry per allocated node, and its keys are distinct
names among `names`. -/
def StateInv (names : List String) (st : BuildState) : Prop :=
  st.baseSources = List.range st.heap.length ∧ st.sourceAdded.length = st.heap.length ∧
    MapWF st.sourceAdded ∧ ∀ k ∈ mapKeys st.sourceAdded, k ∈ names

/-- In the heap, the node `n` records the node `s` as its upstream for some consumed key:
`n.Consumes[k] = s`. -/
def Upstream (heap : List DependencyNode) (n s : NodePtr) : Prop :=
  ∃ node k, heap[n]? = some node ∧ mapGet (entries node.Consumes) k = some s

/-- In the heap, the node `s` records the node `n` as a downstream under the name `name`:
`s.Dependents[name] = n`. -/
def Downstream (heap : List DependencyNode) (s : NodePtr) (name : String) (n : NodePtr) :
    Prop :=
  ∃ snode, heap[s]? = some snode ∧ mapGet snode.Dependents name = some n

/-- The edges of the graph under construction: `sourceAdded` names every allocated node
once, and the `Consumes` and `Dependents` links mirror each other. -/
structure LinkInv (st : BuildState) : Prop where
  /-- Every recorded pointer is allocated. -/
  valid : ∀ e ∈ st.sourceAdded, e.2 < st.heap.length
  /-- Every allocated node has a name. -/
  named : ∀ p, p < st.heap.length → ∃ name, mapGet st.sourceAdded name = some p
  /-- No node has two names. -/
  inj : ∀ name name' p, mapGet st.sourceAdded name = some p →
    mapGet st.sourceAdded name' = some p → name = name'
  /-- An upstream link has its downstream link. -/
  forward : ∀ name n s, mapGet st.sourceAdded name = some n → Upstream st.heap n s →
    Downstream st.heap s name n
  /-- A downstream link has its upstream link, and is filed under the name of the node. -/
  backward : ∀ s name n, Downstream st.heap s name n →
    mapGet st.sourceAdded name = some n ∧ Upstream st.heap n s

/-- While the producers are promoted, every recorded node was built from a producer of that
name and carries its `Produces` map. -/
def OriginInv (ps : List DataSourcePlugin) (st : BuildState) : Prop :=
  ∀ name p, mapGet st.sourceAdded name = some p →
    ∃ node dsp, st.heap[p]? = some node ∧ dsp ∈ ps ∧ dsp.Name = name ∧
      node.Produces = dsp.Produces

/-- What the statement `source.Dependents[name] = &node` does to the node at index `i` when
the sources are `srcs`. -/
def touch (name : String) (ptr : NodePtr) (srcs : List NodePtr) (i : NodePtr)
    (n : DependencyNode) : DependencyNode :=
  if i ∈ srcs then { n with Dependents := mapSet n.Dependents name ptr } else n

/-- The function `f` of the range order returns `r` whatever order the range loops take. -/
def ReturnsForEveryOrder {α : Type} (f : RangeOrder → α) (r : α) : Prop :=
  ∀ ρ : RangeOrder, ρ.Fair → f ρ = r

/-- The map `m` holds exactly the declarations of the list `D`. -/
def Records (m : GoMap GoType) (D : GoMap GoType) : Prop :=
  (∀ kv ∈ D, mapGet m kv.1 = some kv.2) ∧ (∀ k t, mapGet m k = some t → (k, t) ∈ D) ∧
    MapWF m

/-! ## Sample plugin sets -/

/-- A root producer of the key "k". -/
def dupFirst : DataSourcePlugin := ⟨"first", .PoolLevel, none, some [("k", .int)]⟩

/-- A second root producer of the key "k". -/
def dupSecond : DataSourcePlugin := ⟨"second", .PoolLevel, none, some [("k", .int)]⟩

/-- A second producer of the key "k", which consumes the key "u" that nobody produces. -/
def dupSecondUnmet : DataSourcePlugin :=
  ⟨"second", .PoolLevel, some [("u", .int)], some [("k", .int)]⟩

/-- A producer of the key "k" that consumes "c" as an int. -/
def conflictFirst : DataSourcePlugin :=
  ⟨"first", .PoolLevel, some [("c", .int)], some [("k", .int)]⟩

/-- A second producer of the key "k", which consumes "c" as a float32. -/
def conflictSecond : DataSourcePlugin :=
  ⟨"second", .PoolLevel, some [("c", .float32)], some [("k", .int)]⟩

/-- A second producer of the int key "k", which consumes "k" as a float32. -/
def dupSecondMismatch : DataSourcePlugin :=
  ⟨"second", .PoolLevel, some [("k", .float32)], some [("k", .int)]⟩

/-- A root producer of "kv-cache-utilization" as an int. -/
def intCacheSource : DataSourcePlugin :=
  ⟨"int-cache-source", .PoolLevel, none, some [("kv-cache-utilization", .int)]⟩

/-- A root producer of "kv-cache-utilization" as a float32, and of nothing else. -/
def cacheSource : DataSourcePlugin :=
  ⟨"cache-source", .PoolLevel, none, some [("kv-cache-utilization", .float32)]⟩

/-- A root producer of the key "a". -/
def rootA : DataSourcePlugin := ⟨"A", .PoolLevel, none, some [("a", .int)]⟩

/-- A root producer of the key "b". -/
def rootB : DataSourcePlugin := ⟨"B", .PoolLevel, none, some [("b", .int)]⟩

/-- A producer of the key "c" that consumes the key "a". -/
def dependentC : DataSourcePlugin := ⟨"C", .PoolLevel, some [("a", .int)], some [("c", .int)]⟩

/-- A producer of the key "x" that consumes the key "y". -/
def cycleX : DataSourcePlugin := ⟨"X", .PoolLevel, some [("y", .int)], some [("x", .int)]⟩

/-- A producer of the key "y" that consumes the key "x". -/
def cycleY : DataSourcePlugin := ⟨"Y", .PoolLevel, some [("x", .int)], some [("y", .int)]⟩

/-- The graph built for `dependentC`, `rootA` in this order: the node of `dependentC`
(pointer 0) has an empty `Consumes` map and the node of `rootA` has no dependent. -/
def dependentFirstGraph : DataGraph where
  nodes := [0, 1]
  heap := [
    { Consumes := some [], Produces := some [("c", .int)], Dependents := [] },
    { Consumes := none, Produces := some [("a", .int)], Dependents := [] }]

/-- The graph built for `rootA`, `dependentC` in this order: the node of `dependentC`
(pointer 1) consumes "a" from the node of `rootA` (pointer 0). -/
def rootFirstGraph : DataGraph where
  nodes := [0, 1]
  heap := [
    { Consumes := none, Produces := some [("a", .int)], Dependents := [("C", 1)] },
    { Consumes := some [("a", 0)], Produces := some [("c", .int)], Dependents := [] }]

/-- The graph built for `cycleX`, `cycleY`: the node of `cycleX` (pointer 0) has an empty
`Consumes` map, the node of `cycleY` (pointer 1) consumes "x" from it. -/
def cycleGraph : DataGraph where
  nodes := [0, 1]
  heap := [
    { Consumes := some [], Produces := some [("x", .int)], Dependents := [("Y", 1)] },
    { Consumes := some [("x", 0)], Produces := some [("y", .int)], Dependents := [] }]

/-- The graph built for `cacheSource` and one scoring plugin: the node of the scoring plugin
(pointer 1) consumes "kv-cache-utilization" from the node of `cacheSource` (pointer 0). -/
def cacheGraph : DataGraph where
  nodes := [0, 1]
  heap := [
    { Consumes := none, Produces := some [("kv-cache-utilization", .float32)],
      Dependents := [("scoring-plugin", 1)] },
    { Consumes := some [("kv-cache-utilization", 0)], Produces := none, Dependents := [] }]

/-! ## Lemmas on maps -/

theorem mapGet_eq_none_iff {V : Type} (m : GoMap V) (k : String) :
    mapGet m k = none ↔ k ∉ mapKeys m := by
  induction m with
  | nil => simp [mapGet, mapKeys]
  | cons e m ih =>
    obtain ⟨k', v⟩ := e
    by_cases h : k' = k
    · simp [mapGet, mapKeys, h]
    · simp only [mapGet, h, if_false, ih]
      simp [mapKeys, Ne.symm h]

theorem mapHas_iff {V : Type} (m : GoMap V) (k : String) :
    mapHas m k = true ↔ k ∈ mapKeys m := by
  unfold mapHas
  rw [Option.isSome_iff_ne_none, Ne, mapGet_eq_none_iff, not_not]

theorem mem_of_mapGet {V : Type} {m : GoMap V} {k : String} {v : V}
    (h : mapGet m k = some v) : (k, v) ∈ m := by
  induction m with
  | nil => simp [mapGet] at h
  | cons e m ih =>
    obtain ⟨k', v'⟩ := e
    by_cases hk : k' = k
    · simp [mapGet, hk] at h
      simp [hk, h]
    · simp only [mapGet, hk, if_false] at h
      exact List.mem_cons_of_mem _ (ih h)

theorem mapGet_of_mem {V : Type} {m : GoMap V} (hm : MapWF m) {k : String} {v : V}
    (h : (k, v) ∈ m) : mapGet m k = some v := by
  induction m with
  | nil => simp at h
  | cons e m ih =>
    obtain ⟨k', v'⟩ := e
    have hnd : k' ∉ mapKeys m ∧ MapWF m := by
      simpa [MapWF, mapKeys] using hm
    rcases List.mem_cons.mp h with h | h
    · cases h; simp [mapGet]
    · have hk : k' ≠ k := by
        rintro rfl
        exact hnd.1 (List.mem_map_of_mem Prod.fst h)
      simp only [mapGet, hk, if_false]
      exact ih hnd.2 h

theorem mapGet_mapSet_self {V : Type} (m : GoMap V) (k : String) (v : V) :
    mapGet (mapSet m k v) k = some v := by
  induction m with
  | nil => simp [mapSet, mapGet]
  | cons e m ih =>
    obtain ⟨k', v'⟩ := e
    by_cases h : k' = k
    · simp [mapSet, mapGet, h]
    · simp [mapSet, mapGet, h, ih]

theorem mapGet_mapSet_ne {V : Type} (m : GoMap V) {k k' : String} (v : V) (h : k ≠ k') :
    mapGet (mapSet m k v) k' = mapGet m k' := by
  induction m with
  | nil => simp [mapSet, mapGet, h]
  | cons e m ih =>
    obtain ⟨k'', v''⟩ := e
    by_cases h1 : k'' = k
    · subst h1; simp [mapSet, mapGet, h]
    · by_cases h2 : k'' = k'
      · subst h2; simp [mapSet, mapGet, h1]
      · simp [mapSet, mapGet, h1, h2, ih]

theorem mapSet_of_not_mem {V : Type} (m : GoMap V) {k : String} (v : V)
    (h : k ∉ mapKeys m) : mapSet m k v = m ++ [(k, v)] := by
  induction m with
  | nil => simp [mapSet]
  | cons e m ih =>
    obtain ⟨k', v'⟩ := e
    have h' : k' ≠ k ∧ k ∉ mapKeys m := by
      simp [mapKeys] at h
      simp [mapKeys]
      exact ⟨fun e => h.1 e.symm, h.2⟩
    simp [mapSet, h'.1, ih h'.2]

theorem mapKeys_mapSet_of_mem {V : Type} (m : GoMap V) {k : String} (v : V)
    (h : k ∈ mapKeys m) : mapKeys (mapSet m k v) = mapKeys m := by
  induction m with
  | nil => simp [mapKeys] at h
  | cons e m ih =>
    obtain ⟨k', v'⟩ := e
    by_cases hk : k' = k
    · simp [mapSet, hk, mapKeys]
    · have : k ∈ mapKeys m := by
        simp [mapKeys] at h
        rcases h with h | h
        · exact absurd h.symm hk
        · simpa [mapKeys] using h
      have ih' := ih this
      simp only [mapSet, hk, if_false]
      simp only [mapKeys, List.map_cons] at ih' ⊢
      rw [ih']

theorem MapWF.mapSet {V : Type} {m : GoMap V} (hm : MapWF m) (k : String) (v : V) :
    MapWF (mapSet m k v) := by
  by_cases h : k ∈ mapKeys m
  · unfold MapWF
    rw [mapKeys_mapSet_of_mem m v h]
    exact hm
  · rw [mapSet_of_not_mem m v h]
    unfold MapWF mapKeys at *
    rw [List.map_append, List.nodup_append]
    refine ⟨hm, List.nodup_singleton _, ?_⟩
    intro x hx hx'
    simp only [List.map_cons, List.map_nil, List.mem_singleton] at hx'
    subst hx'
    exact h hx

theorem length_mapSet_of_not_mem {V : Type} (m : GoMap V) {k : String} (v : V)
    (h : k ∉ mapKeys m) : (mapSet m k v).length = m.length + 1 := by
  rw [mapSet_of_not_mem m v h]
  simp

theorem RangeOrder.Fair.mem_iff {ρ : RangeOrder} (h : ρ.Fair) {V : Type} (m : GoMap V)
    (x : String × V) : x ∈ ρ.order m ↔ x ∈ m := (h V m).mem_iff

theorem RangeOrder.Fair.wf {ρ : RangeOrder} (h : ρ.Fair) {V : Type} {m : GoMap V}
    (hm : MapWF m) : MapWF (ρ.order m) :=
  ((h V m).map Prod.fst).nodup_iff.mpr hm

theorem RangeOrder.fair_stored : RangeOrder.stored.Fair := fun _ m => List.Perm.refl m


/-! ## Lemmas on validateKeysAndTypes -/

theorem Records.nil : Records [] [] :=
  ⟨fun _ h => by simp at h, fun _ _ h => by simp [mapGet] at h, by simp [MapWF, mapKeys]⟩

theorem Records.congr {m D D' : GoMap GoType} (h : Records m D)
    (hD : ∀ x, x ∈ D ↔ x ∈ D') : Records m D' :=
  ⟨fun kv hkv => h.1 kv ((hD kv).mpr hkv), fun k t hk => (hD (k, t)).mp (h.2.1 k t hk), h.2.2⟩

theorem Records.functional {m D : GoMap GoType} (h : Records m D) {k : String} {t v : GoType}
    (ht : (k, t) ∈ D) (hv : (k, v) ∈ D) : t = v := by
  have h1 := h.1 _ ht
  have h2 := h.1 _ hv
  simp only at h1 h2
  rw [h1] at h2
  exact Option.some.inj h2

theorem Records.add_new {m D : GoMap GoType} (h : Records m D) {k : String} (v : GoType)
    (hk : mapGet m k = none) : Records (mapSet m k v) (D ++ [(k, v)]) := by
  refine ⟨?_, ?_, h.2.2.mapSet k v⟩
  · intro kv hkv
    rcases List.mem_append.mp hkv with hkv | hkv
    · have h1 := h.1 kv hkv
      have hne : k ≠ kv.1 := by
        rintro rfl
        rw [hk] at h1
        exact Option.noConfusion h1
      rw [mapGet_mapSet_ne _ _ hne]
      exact h1
    · simp only [List.mem_singleton] at hkv
      subst hkv
      exact mapGet_mapSet_self _ _ _
  · intro k' t hk'
    by_cases hne : k = k'
    · subst hne
      rw [mapGet_mapSet_self] at hk'
      cases hk'
      simp
    · rw [mapGet_mapSet_ne _ _ hne] at hk'
      exact List.mem_append_left _ (h.2.1 k' t hk')

theorem Records.add_old {m D : GoMap GoType} (h : Records m D) {k : String} {v : GoType}
    (hk : mapGet m k = some v) : Records m (D ++ [(k, v)]) := by
  refine ⟨?_, ?_, h.2.2⟩
  · intro kv hkv
    rcases List.mem_append.mp hkv with hkv | hkv
    · exact h.1 kv hkv
    · simp only [List.mem_singleton] at hkv
      subst hkv
      exact hk
  · intro k' t hk'
    exact List.mem_append_left _ (h.2.1 k' t hk')

theorem consumeLoop_ok {es dc dc' D : GoMap GoType} (h : consumeLoop es dc = .ok dc')
    (hD : Records dc D) : Records dc' (D ++ es) := by
  induction es generalizing dc D with
  | nil =>
    simp only [consumeLoop, Except.ok.injEq] at h
    subst h
    simpa using hD
  | cons e rest ih =>
    obtain ⟨k, v⟩ := e
    unfold consumeLoop at h
    split at h
    · next hk =>
      have := ih h (hD.add_new v hk)
      simpa [List.append_assoc] using this
    · next t hk =>
      split at h
      · exact Except.noConfusion h
      · next htv =>
        have htv' : t = v := not_not.mp htv
        subst htv'
        have := ih h (hD.add_old hk)
        simpa [List.append_assoc] using this

theorem consumeLoop_error {es dc D : GoMap GoType} {e : BuildError}
    (h : consumeLoop es dc = .error e) (hD : Records dc D) :
    ∃ k t v, e = .conflictingTypes k ∧ t ≠ v ∧ (k, t) ∈ D ++ es ∧ (k, v) ∈ D ++ es := by
  induction es generalizing dc D with
  | nil => simp [consumeLoop] at h
  | cons e' rest ih =>
    obtain ⟨k, v⟩ := e'
    unfold consumeLoop at h
    split at h
    · next hk =>
      obtain ⟨k', t, v', he, hne, h1, h2⟩ := ih h (hD.add_new v hk)
      exact ⟨k', t, v', he, hne, by simpa [List.append_assoc] using h1,
        by simpa [List.append_assoc] using h2⟩
    · next t hk =>
      split at h
      · next htv =>
        simp only [Except.error.injEq] at h
        exact ⟨k, t, v, h.symm, htv, List.mem_append_left _ (hD.2.1 k t hk), by simp⟩
      · next htv =>
        have htv' : t = v := not_not.mp htv
        subst htv'
        obtain ⟨k', t', v', he, hne, h1, h2⟩ := ih h (hD.add_old hk)
        exact ⟨k', t', v', he, hne, by simpa [List.append_assoc] using h1,
          by simpa [List.append_assoc] using h2⟩

theorem Records.key_mem {m D : GoMap GoType} (h : Records m D) {k : String}
    (hk : k ∈ mapKeys D) : mapGet m k ≠ none := by
  obtain ⟨kv, hkv, rfl⟩ := List.mem_map.mp hk
  rw [h.1 kv hkv]
  exact Option.some_ne_none _

theorem produceLoop_ok {es dp dp' D : GoMap GoType} (h : produceLoop es dp = .ok dp')
    (hD : Records dp D) (hN : (mapKeys D).Nodup) :
    Records dp' (D ++ es) ∧ (mapKeys (D ++ es)).Nodup := by
  induction es generalizing dp D with
  | nil =>
    simp only [produceLoop, Except.ok.injEq] at h
    subst h
    simpa using ⟨hD, hN⟩
  | cons e rest ih =>
    obtain ⟨k, v⟩ := e
    unfold produceLoop at h
    split at h
    · exact Except.noConfusion h
    · next hk =>
      have hk' : mapGet dp k = none := by
        simpa [mapHas] using hk
      have hfresh : k ∉ mapKeys D := fun hmem => hD.key_mem hmem hk'
      have hN' : (mapKeys (D ++ [(k, v)])).Nodup := by
        simp only [mapKeys, List.map_append, List.map_cons, List.map_nil]
        rw [List.nodup_append]
        refine ⟨hN, List.nodup_singleton _, ?_⟩
        intro x hx hx'
        simp only [List.mem_singleton] at hx'
        subst hx'
        exact hfresh hx
      have := ih h (hD.add_new v hk') hN'
      simpa [List.append_assoc] using this

theorem produceLoop_error {es dp D : GoMap GoType} {e : BuildError}
    (h : produceLoop es dp = .error e) (hD : Records dp D) :
    ∃ k, e = .duplicateProducer k ∧ 2 ≤ (mapKeys (D ++ es)).count k := by
  induction es generalizing dp D with
  | nil => simp [produceLoop] at h
  | cons e' rest ih =>
    obtain ⟨k, v⟩ := e'
    unfold produceLoop at h
    split at h
    · next hk =>
      simp only [Except.error.injEq] at h
      refine ⟨k, h.symm, ?_⟩
      obtain ⟨t, ht⟩ := Option.isSome_iff_exists.mp hk
      have hmem : k ∈ mapKeys D := List.mem_map_of_mem Prod.fst (hD.2.1 k t ht)
      have h1 : 1 ≤ (mapKeys D).count k := List.count_pos_iff.mpr hmem
      simp only [mapKeys, List.map_append, List.map_cons, List.count_append,
        List.count_cons_self] at h1 ⊢
      omega
    · next hk =>
      have hk' : mapGet dp k = none := by
        simpa [mapHas] using hk
      obtain ⟨k', he, hnd⟩ := ih h (hD.add_new v hk')
      exact ⟨k', he, by simpa [List.append_assoc] using hnd⟩

theorem checkLoop_ok {dp es : GoMap GoType} (h : checkLoop dp es = .ok ()) :
    ∀ kv ∈ es, mapGet dp kv.1 = some kv.2 := by
  induction es with
  | nil => intro kv hkv; simp at hkv
  | cons e rest ih =>
    obtain ⟨k, v⟩ := e
    unfold checkLoop at h
    split at h
    · exact Except.noConfusion h
    · next t hk =>
      split at h
      · exact Except.noConfusion h
      · next htv =>
        have htv' : t = v := not_not.mp htv
        subst htv'
        intro kv hkv
        rcases List.mem_cons.mp hkv with hkv | hkv
        · subst hkv; exact hk
        · exact ih h kv hkv

theorem checkLoop_error {dp es : GoMap GoType} {e : BuildError}
    (h : checkLoop dp es = .error e) :
    (∃ k v, e = .unsatisfiedDependency k ∧ (k, v) ∈ es ∧ mapGet dp k = none) ∨
    (∃ k v t, e = .typeMismatch k ∧ (k, v) ∈ es ∧ mapGet dp k = some t ∧ t ≠ v) := by
  induction es with
  | nil => simp [checkLoop] at h
  | cons e' rest ih =>
    obtain ⟨k, v⟩ := e'
    unfold checkLoop at h
    split at h
    · next hk =>
      simp only [Except.error.injEq] at h
      exact Or.inl ⟨k, v, h.symm, List.mem_cons_self _ _, hk⟩
    · next t hk =>
      split at h
      · next htv =>
        simp only [Except.error.injEq] at h
        exact Or.inr ⟨k, v, t, h.symm, List.mem_cons_self _ _, hk, htv⟩
      · rcases ih h with ⟨k', v', he, hm, hg⟩ | ⟨k', v', t', he, hm, hg, hne⟩
        · exact Or.inl ⟨k', v', he, List.mem_cons_of_mem _ hm, hg⟩
        · exact Or.inr ⟨k', v', t', he, List.mem_cons_of_mem _ hm, hg, hne⟩

theorem Records.order_right {ρ : RangeOrder} (hρ : ρ.Fair) {m D E : GoMap GoType}
    (h : Records m (D ++ ρ.order E)) : Records m (D ++ E) :=
  h.congr fun x => by simp [hρ.mem_iff]

theorem scoringLoop_ok {ρ : RangeOrder} (hρ : ρ.Fair) {cs : List DataConsumingPlugin}
    {dc dc' D : GoMap GoType} (h : scoringLoop ρ cs dc = .ok dc') (hD : Records dc D) :
    Records dc' (D ++ cs.flatMap (fun sp => entries sp.Consumes)) := by
  induction cs generalizing dc D with
  | nil =>
    simp only [scoringLoop, Except.ok.injEq] at h
    subst h
    simpa using hD
  | cons sp rest ih =>
    unfold scoringLoop at h
    split at h
    · exact Except.noConfusion h
    · next dc1 h1 =>
      have := ih h ((consumeLoop_ok h1 hD).order_right hρ)
      simpa [List.append_assoc] using this

theorem scoringLoop_error {ρ : RangeOrder} (hρ : ρ.Fair) {cs : List DataConsumingPlugin}
    {dc D : GoMap GoType} {e : BuildError} (h : scoringLoop ρ cs dc = .error e)
    (hD : Records dc D) :
    ∃ k t v, e = .conflictingTypes k ∧ t ≠ v ∧
      (k, t) ∈ D ++ cs.flatMap (fun sp => entries sp.Consumes) ∧
      (k, v) ∈ D ++ cs.flatMap (fun sp => entries sp.Consumes) := by
  induction cs generalizing dc D with
  | nil => simp [scoringLoop] at h
  | cons sp rest ih =>
    unfold scoringLoop at h
    split at h
    · next e' h1 =>
      simp only [Except.error.injEq] at h
      subst h
      obtain ⟨k, t, v, he, hne, ht, hv⟩ := consumeLoop_error h1 hD
      refine ⟨k, t, v, he, hne, ?_, ?_⟩
      · simp only [List.mem_append, hρ.mem_iff] at ht
        simp only [List.flatMap_cons, List.mem_append]
        tauto
      · simp only [List.mem_append, hρ.mem_iff] at hv
        simp only [List.flatMap_cons, List.mem_append]
        tauto
    · next dc1 h1 =>
      obtain ⟨k, t, v, he, hne, ht, hv⟩ := ih h ((consumeLoop_ok h1 hD).order_right hρ)
      exact ⟨k, t, v, he, hne, by simpa [List.append_assoc] using ht,
        by simpa [List.append_assoc] using hv⟩

theorem nodup_keys_order_right {ρ : RangeOrder} (hρ : ρ.Fair) {D E : GoMap GoType} :
    (mapKeys (D ++ ρ.order E)).Nodup ↔ (mapKeys (D ++ E)).Nodup :=
  (((hρ GoType E).append_left D).map Prod.fst).nodup_iff

theorem producerLoop_ok {ρ : RangeOrder} (hρ : ρ.Fair) {ps : List DataSourcePlugin}
    {dc dp dc' dp' Dc Dp : GoMap GoType}
    (h : producerLoop ρ ps (dc, dp) = .ok (dc', dp'))
    (hDc : Records dc Dc) (hDp : Records dp Dp) (hN : (mapKeys Dp).Nodup) :
    Records dc' (Dc ++ ps.flatMap (fun dsp => entries dsp.Consumes)) ∧
    Records dp' (Dp ++ ps.flatMap (fun dsp => entries dsp.Produces)) ∧
    (mapKeys (Dp ++ ps.flatMap (fun dsp => entries dsp.Produces))).Nodup := by
  induction ps generalizing dc dp Dc Dp with
  | nil =>
    simp only [producerLoop, Except.ok.injEq, Prod.mk.injEq] at h
    obtain ⟨rfl, rfl⟩ := h
    simpa using ⟨hDc, hDp, hN⟩
  | cons dsp rest ih =>
    unfold producerLoop at h
    split at h
    · exact Except.noConfusion h
    · next dc1 h1 =>
      split at h
      · exact Except.noConfusion h
      · next dp1 h2 =>
        have hp := produceLoop_ok h2 hDp hN
        have := ih h ((consumeLoop_ok h1 hDc).order_right hρ) (hp.1.order_right hρ)
          ((nodup_keys_order_right hρ).mp hp.2)
        simpa [List.append_assoc] using this

theorem count_keys_order_right {ρ : RangeOrder} (hρ : ρ.Fair) (D E R : GoMap GoType)
    (k : String) :
    (mapKeys (D ++ ρ.order E)).count k ≤ (mapKeys ((D ++ E) ++ R)).count k := by
  have h := ((((hρ GoType E).append_left D).map Prod.fst).count_eq k)
  simp only [mapKeys] at h ⊢
  rw [h, List.map_append _ (D ++ E) R, List.count_append]
  exact Nat.le_add_right _ _

theorem producerLoop_error {ρ : RangeOrder} (hρ : ρ.Fair) {ps : List DataSourcePlugin}
    {dc dp Dc Dp : GoMap GoType} {e : BuildError}
    (h : producerLoop ρ ps (dc, dp) = .error e)
    (hDc : Records dc Dc) (hDp : Records dp Dp) (hN : (mapKeys Dp).Nodup) :
    (∃ k t v, e = .conflictingTypes k ∧ t ≠ v ∧
      (k, t) ∈ Dc ++ ps.flatMap (fun dsp => entries dsp.Consumes) ∧
      (k, v) ∈ Dc ++ ps.flatMap (fun dsp => entries dsp.Consumes)) ∨
    (∃ k, e = .duplicateProducer k ∧
      2 ≤ (mapKeys (Dp ++ ps.flatMap (fun dsp => entries dsp.Produces))).count k) := by
  induction ps generalizing dc dp Dc Dp with
  | nil => simp [producerLoop] at h
  | cons dsp rest ih =>
    unfold producerLoop at h
    split at h
    · next e' h1 =>
      simp only [Except.error.injEq] at h
      subst h
      obtain ⟨k, t, v, he, hne, ht, hv⟩ := consumeLoop_error h1 hDc
      refine Or.inl ⟨k, t, v, he, hne, ?_, ?_⟩
      · simp only [List.mem_append, hρ.mem_iff] at ht
        simp only [List.flatMap_cons, List.mem_append]
        tauto
      · simp only [List.mem_append, hρ.mem_iff] at hv
        simp only [List.flatMap_cons, List.mem_append]
        tauto
    · next dc1 h1 =>
      split at h
      · next e' h2 =>
        simp only [Except.error.injEq] at h
        subst h
        obtain ⟨k, he, hnd⟩ := produceLoop_error h2 hDp
        refine Or.inr ⟨k, he, le_trans hnd ?_⟩
        rw [List.flatMap_cons, ← List.append_assoc]
        exact count_keys_order_right hρ _ _ _ k
      · next dp1 h2 =>
        have hp := produceLoop_ok h2 hDp hN
        rcases ih h ((consumeLoop_ok h1 hDc).order_right hρ) (hp.1.order_right hρ)
          ((nodup_keys_order_right hρ).mp hp.2) with
          ⟨k, t, v, he, hne, ht, hv⟩ | ⟨k, he, hnd⟩
        · exact Or.inl ⟨k, t, v, he, hne, by simpa [List.append_assoc] using ht,
            by simpa [List.append_assoc] using hv⟩
        · exact Or.inr ⟨k, he, by simpa [List.append_assoc] using hnd⟩

/-- What a nil error of `validateKeysAndTypes` establishes: every consumed `(key, type)` pair
is produced, no key is produced twice, and the plugins agree on the type of each consumed
key. -/
theorem validate_ok {ρ : RangeOrder} (hρ : ρ.Fair) {ps : List DataSourcePlugin}
    {cs : List DataConsumingPlugin} (h : validateKeysAndTypes ρ ps cs = .ok ()) :
    (∀ kv ∈ declaredConsumed ps cs, kv ∈ declaredProduced ps) ∧
    DistinctProducedKeys ps ∧ ¬ ConsumedTypesDiffer ps cs := by
  unfold validateKeysAndTypes at h
  split at h
  · exact Except.noConfusion h
  · next dc0 h0 =>
    split at h
    · exact Except.noConfusion h
    · next dc dp h1 =>
      have hR0 := scoringLoop_ok hρ h0 Records.nil
      obtain ⟨hRc, hRp, hN⟩ := producerLoop_ok hρ h1 hR0 Records.nil (by simp [mapKeys])
      simp only [List.nil_append] at hRc hRp hN
      have hck := checkLoop_ok h
      refine ⟨?_, hN, fun ⟨k, t, v, ht, hv, hne⟩ => hne (hRc.functional ht hv)⟩
      intro kv hkv
      have h2 := hRc.1 kv hkv
      have h3 := hck kv ((hρ.mem_iff _ _).mpr (mem_of_mapGet h2))
      exact hRp.2.1 _ _ h3

/-- What each error of `validateKeysAndTypes` reports: the key it names is a real offender,
and the two errors of the last loop are only reached when the earlier loops found
nothing. -/
theorem validate_error {ρ : RangeOrder} (hρ : ρ.Fair) {ps : List DataSourcePlugin}
    {cs : List DataConsumingPlugin} {e : BuildError}
    (h : validateKeysAndTypes ρ ps cs = .error e) :
    (∃ k, e = .conflictingTypes k ∧ ConsumedTypesDifferAt ps cs k) ∨
    (∃ k, e = .duplicateProducer k ∧ ProducedTwice ps k) ∨
    (∃ k, e = .unsatisfiedDependency k ∧ UnmetKey ps cs k ∧
      DistinctProducedKeys ps ∧ ¬ ConsumedTypesDiffer ps cs) ∨
    (∃ k, e = .typeMismatch k ∧ ProducedTypeDiffersAt ps cs k ∧
      DistinctProducedKeys ps ∧ ¬ ConsumedTypesDiffer ps cs) := by
  unfold validateKeysAndTypes at h
  split at h
  · next e' h0 =>
    simp only [Except.error.injEq] at h
    subst h
    obtain ⟨k, t, v, he, hne, ht, hv⟩ := scoringLoop_error hρ h0 Records.nil
    simp only [List.nil_append] at ht hv
    exact Or.inl ⟨k, he, t, v, List.mem_append_left _ ht, List.mem_append_left _ hv, hne⟩
  · next dc0 h0 =>
    have hR0 := scoringLoop_ok hρ h0 Records.nil
    simp only [List.nil_append] at hR0
    split at h
    · next e' h1 =>
      simp only [Except.error.injEq] at h
      subst h
      rcases producerLoop_error hρ h1 hR0 Records.nil (by simp [mapKeys]) with
        ⟨k, t, v, he, hne, ht, hv⟩ | ⟨k, he, hnd⟩
      · exact Or.inl ⟨k, he, t, v, ht, hv, hne⟩
      · exact Or.inr (Or.inl ⟨k, he, by simpa using hnd⟩)
    · next dc dp h1 =>
      obtain ⟨hRc, hRp, hN⟩ := producerLoop_ok hρ h1 hR0 Records.nil (by simp [mapKeys])
      simp only [List.nil_append] at hRc hRp hN
      have hfun : ¬ ConsumedTypesDiffer ps cs :=
        fun ⟨k, t, v, ht, hv, hne⟩ => hne (hRc.functional ht hv)
      rcases checkLoop_error h with ⟨k, v, he, hm, hg⟩ | ⟨k, v, t, he, hm, hg, hne⟩
      · have hkv := hRc.2.1 k v (mapGet_of_mem hRc.2.2 ((hρ.mem_iff _ _).mp hm))
        exact Or.inr (Or.inr (Or.inl ⟨k, he,
          ⟨List.mem_map_of_mem Prod.fst hkv, fun hk => hRp.key_mem hk hg⟩, hN, hfun⟩))
      · exact Or.inr (Or.inr (Or.inr ⟨k, he, ⟨t, v, hRp.2.1 k t hg,
          hRc.2.1 k v (mapGet_of_mem hRc.2.2 ((hρ.mem_iff _ _).mp hm)), hne⟩, hN, hfun⟩))

theorem produceDataGraph_of_validate_error {ρ : RangeOrder} {ps : List DataSourcePlugin}
    {cs : List DataConsumingPlugin} {e : BuildError}
    (h : validateKeysAndTypes ρ ps cs = .error e) :
    produceDataGraph ρ ps cs = some (.error e) := by
  simp [produceDataGraph, h]

theorem validate_ok_of_graph {ρ : RangeOrder} {ps : List DataSourcePlugin}
    {cs : List DataConsumingPlugin} {g : DataGraph}
    (h : produceDataGraph ρ ps cs = some (.ok g)) :
    validateKeysAndTypes ρ ps cs = .ok () := by
  unfold produceDataGraph at h
  split at h
  · simp at h
  · next hv => exact hv

theorem ProducedTwice.not_distinct_of_twice {ps : List DataSourcePlugin} {k : String}
    (h : ProducedTwice ps k) : ¬ DistinctProducedKeys ps := by
  intro hN
  have := List.nodup_iff_count_le_one.mp hN k
  unfold ProducedTwice at h
  omega

theorem SharedProducedKey.not_distinct_of_shared {ps : List DataSourcePlugin}
    (h : SharedProducedKey ps) : ¬ DistinctProducedKeys ps := by
  obtain ⟨i, j, p, q, k, hij, hp, hq, hkp, hkq⟩ := h
  unfold DistinctProducedKeys declaredProduced
  induction ps generalizing i j with
  | nil => simp at hp
  | cons a rest ih =>
    intro hN
    simp only [mapKeys, List.flatMap_cons, List.map_append] at hN
    rw [List.nodup_append] at hN
    cases j with
    | zero => omega
    | succ j =>
      simp only [List.get?_cons_succ] at hq
      cases i with
      | zero =>
        simp only [List.get?_cons_zero, Option.some.injEq] at hp
        subst hp
        refine hN.2.2 hkp ?_
        have hq' : q ∈ rest := List.get?_mem hq
        simp only [mapKeys] at hkq
        simp only [List.mem_map, List.mem_flatMap]
        obtain ⟨kv, hkv, rfl⟩ := List.mem_map.mp hkq
        exact ⟨kv, ⟨q, hq', hkv⟩, rfl⟩
      | succ i =>
        simp only [List.get?_cons_succ] at hp
        exact ih i j (by omega) hp hq hN.2.1

theorem validate_fails_or_ok {ρ : RangeOrder} (ps : List DataSourcePlugin)
    (cs : List DataConsumingPlugin) :
    validateKeysAndTypes ρ ps cs = .ok () ∨ ∃ e, validateKeysAndTypes ρ ps cs = .error e := by
  cases h : validateKeysAndTypes ρ ps cs with
  | error e => exact Or.inr ⟨e, rfl⟩
  | ok u => exact Or.inl rfl

theorem mem_unique_of_distinct {m : GoMap GoType} (hN : (mapKeys m).Nodup) {k : String}
    {t v : GoType} (ht : (k, t) ∈ m) (hv : (k, v) ∈ m) : t = v := by
  have h1 := mapGet_of_mem hN ht
  have h2 := mapGet_of_mem hN hv
  rw [h1] at h2
  exact Option.some.inj h2

theorem RangeOrder.Fair.order_nil {ρ : RangeOrder} (h : ρ.Fair) (V : Type) :
    ρ.order ([] : GoMap V) = [] := List.perm_nil.mp (h V [])

theorem RangeOrder.Fair.order_singleton {ρ : RangeOrder} (h : ρ.Fair) {V : Type}
    (x : String × V) : ρ.order [x] = [x] := List.perm_singleton.mp (h V [x])

theorem RangeOrder.Fair.order_pair {ρ : RangeOrder} (h : ρ.Fair) {V : Type}
    (x y : String × V) : ρ.order [x, y] = [x, y] ∨ ρ.order [x, y] = [y, x] := by
  have hp := h V [x, y]
  generalize ρ.order [x, y] = l at hp
  have hlen := hp.length_eq
  match l, hlen with
  | [a, b], _ =>
    have ha : a ∈ [x, y] := hp.subset (List.mem_cons_self _ _)
    simp only [List.mem_cons, List.mem_singleton, List.not_mem_nil, or_false] at ha
    rcases ha with rfl | rfl
    · have := List.Perm.cons_inv hp
      rw [List.perm_singleton.mp this.symm]
      exact Or.inl rfl
    · have hp' : [a, b].Perm [a, x] := hp.trans (List.Perm.swap _ _ _)
      have := List.Perm.cons_inv hp'
      rw [List.perm_singleton.mp this.symm]
      exact Or.inr rfl

/-! ## C4: a consumed key that nobody produces -/

/-- C4, as stated, fails: the producers `dupFirst`, `dupSecondUnmet` consume the key "u"
that no producer declares, and `validateKeysAndTypes` (hence `produceDataGraph`) fails with
the duplicate-producer error for "k", whatever the range order. -/
theorem unmet_key_counterexample :
    UnmetKey [dupFirst, dupSecondUnmet] [] "u" ∧
    validateKeysAndTypes .stored [dupFirst, dupSecondUnmet] [] =
      .error (.duplicateProducer "k") ∧
    ReturnsForEveryOrder (fun ρ => validateKeysAndTypes ρ [dupFirst, dupSecondUnmet] [])
      (.error (.duplicateProducer "k")) ∧
    ReturnsForEveryOrder (fun ρ => produceDataGraph ρ [dupFirst, dupSecondUnmet] [])
      (some (.error (.duplicateProducer "k"))) := by
  have hv : ReturnsForEveryOrder (fun ρ => validateKeysAndTypes ρ [dupFirst, dupSecondUnmet] [])
      (.error (.duplicateProducer "k")) := by
    intro ρ hρ
    simp [validateKeysAndTypes, scoringLoop, producerLoop, consumeLoop, produceLoop,
      dupFirst, dupSecondUnmet, entries, hρ.order_nil, hρ.order_singleton, mapGet, mapSet,
      mapHas]
  refine ⟨by unfold UnmetKey; decide, rfl, hv,
    fun ρ hρ => produceDataGraph_of_validate_error (hv ρ hρ)⟩

/-- C4 (amended): when some plugin consumes a key that no producer declares in `Produces()`,
`validateKeysAndTypes` returns an error and `produceDataGraph` returns the same error and no
graph.  The error is the unsatisfied-dependency error, naming an unmet key, whenever no
earlier check fires: the plugins agree on the type of every consumed key, no key is produced
twice, and no consumed key is produced with another type. -/
theorem unmet_key_fails (ρ : RangeOrder) (hρ : ρ.Fair) (ps : List DataSourcePlugin)
    (cs : List DataConsumingPlugin) (h : HasUnmetKey ps cs) :
    ∃ e, validateKeysAndTypes ρ ps cs = .error e ∧
      produceDataGraph ρ ps cs = some (.error e) ∧
      (¬ ConsumedTypesDiffer ps cs → DistinctProducedKeys ps → ¬ ProducedTypeDiffers ps cs →
        ∃ k, e = .unsatisfiedDependency k ∧ UnmetKey ps cs k) := by
  rcases validate_fails_or_ok (ρ := ρ) ps cs with hok | ⟨e, he⟩
  · exfalso
    obtain ⟨k, hk, hnk⟩ := h
    obtain ⟨kv, hkv, rfl⟩ := List.mem_map.mp hk
    exact hnk (List.mem_map_of_mem Prod.fst ((validate_ok hρ hok).1 kv hkv))
  · refine ⟨e, he, produceDataGraph_of_validate_error he, fun hc hd hm => ?_⟩
    rcases validate_error hρ he with ⟨k, _, hk⟩ | ⟨k, _, hk⟩ | ⟨k, hek, hk, _⟩ |
      ⟨k, _, hk, _⟩
    · exact absurd ⟨k, hk⟩ hc
    · exact absurd hd hk.not_distinct_of_twice
    · exact ⟨k, hek, hk⟩
    · exact absurd ⟨k, hk⟩ hm

/-- C4 (amended), at the empty producer list and one scoring plugin: the key
"kv-cache-utilization" is unmet and the error names it. -/
theorem unmet_key_fails_witness :
    HasUnmetKey [] [{}] ∧
    validateKeysAndTypes .stored [] [{}] =
      .error (.unsatisfiedDependency "kv-cache-utilization") ∧
    ∃ e, validateKeysAndTypes .stored [] [{}] = .error e ∧
      produceDataGraph .stored [] [{}] = some (.error e) ∧
      (¬ ConsumedTypesDiffer [] [{}] → DistinctProducedKeys [] →
        ¬ ProducedTypeDiffers [] [{}] →
        ∃ k, e = .unsatisfiedDependency k ∧ UnmetKey [] [{}] k) :=
  have h : HasUnmetKey [] [{}] := ⟨"kv-cache-utilization", by unfold UnmetKey; decide⟩
  ⟨h, rfl, unmet_key_fails .stored RangeOrder.fair_stored [] [{}] h⟩

theorem declaredProduced_perm {ps ps' : List DataSourcePlugin} (h : ps'.Perm ps) :
    (declaredProduced ps').Perm (declaredProduced ps) :=
  h.flatMap_right _

theorem declaredConsumed_perm {ps ps' : List DataSourcePlugin} (h : ps'.Perm ps)
    (cs : List DataConsumingPlugin) :
    (declaredConsumed ps' cs).Perm (declaredConsumed ps cs) :=
  (h.flatMap_right _).append_left _

theorem DistinctProducedKeys.perm_iff {ps ps' : List DataSourcePlugin} (h : ps'.Perm ps) :
    DistinctProducedKeys ps' ↔ DistinctProducedKeys ps :=
  ((declaredProduced_perm h).map Prod.fst).nodup_iff

theorem ProducedTwice.of_perm {ps ps' : List DataSourcePlugin} (h : ps'.Perm ps) {k : String}
    (hk : ProducedTwice ps' k) : ProducedTwice ps k := by
  unfold ProducedTwice mapKeys at *
  rw [← ((declaredProduced_perm h).map Prod.fst).count_eq k]
  exact hk

theorem ConsumedTypesDiffer.of_perm_producers {ps ps' : List DataSourcePlugin} (h : ps'.Perm ps)
    {cs : List DataConsumingPlugin} (hc : ConsumedTypesDiffer ps' cs) :
    ConsumedTypesDiffer ps cs := by
  obtain ⟨k, t, v, ht, hv, hne⟩ := hc
  exact ⟨k, t, v, (declaredConsumed_perm h cs).mem_iff.mp ht,
    (declaredConsumed_perm h cs).mem_iff.mp hv, hne⟩

/-! ## C5: two producers of one key -/

/-- C5, as stated, fails: `conflictFirst` and `conflictSecond` both declare the key "k" in
`Produces()`, and `validateKeysAndTypes` (hence `produceDataGraph`) fails with the error for
plugins expecting different types of the consumed key "c", whatever the range order. -/
theorem duplicate_producer_counterexample :
    SharedProducedKey [conflictFirst, conflictSecond] ∧
    validateKeysAndTypes .stored [conflictFirst, conflictSecond] [] =
      .error (.conflictingTypes "c") ∧
    ReturnsForEveryOrder (fun ρ => validateKeysAndTypes ρ [conflictFirst, conflictSecond] [])
      (.error (.conflictingTypes "c")) ∧
    ReturnsForEveryOrder (fun ρ => produceDataGraph ρ [conflictFirst, conflictSecond] [])
      (some (.error (.conflictingTypes "c"))) := by
  have hv : ReturnsForEveryOrder
      (fun ρ => validateKeysAndTypes ρ [conflictFirst, conflictSecond] [])
      (.error (.conflictingTypes "c")) := by
    intro ρ hρ
    simp [validateKeysAndTypes, scoringLoop, producerLoop, consumeLoop, produceLoop,
      conflictFirst, conflictSecond, entries, hρ.order_nil, hρ.order_singleton, mapGet,
      mapSet, mapHas]
  refine ⟨⟨0, 1, conflictFirst, conflictSecond, "k", by decide, rfl, rfl, by decide,
    by decide⟩, rfl, hv, fun ρ hρ => produceDataGraph_of_validate_error (hv ρ hρ)⟩

/-- C5 (amended): when two different producers declare the same key in `Produces()`, then
for every permutation of the producer list `validateKeysAndTypes` returns an error and
`produceDataGraph` returns the same error and no graph.  The error is the duplicate-producer
error, naming a key that is produced twice, whenever the plugins agree on the type of every
consumed key. -/
theorem duplicate_producer_fails (ρ : RangeOrder) (hρ : ρ.Fair) (ps : List DataSourcePlugin)
    (cs : List DataConsumingPlugin) (h : SharedProducedKey ps) :
    ∀ ps' : List DataSourcePlugin, ps'.Perm ps →
      ∃ e, validateKeysAndTypes ρ ps' cs = .error e ∧
        produceDataGraph ρ ps' cs = some (.error e) ∧
        (¬ ConsumedTypesDiffer ps cs → ∃ k, e = .duplicateProducer k ∧ ProducedTwice ps k) := by
  intro ps' hperm
  have hnd : ¬ DistinctProducedKeys ps' := fun hd =>
    h.not_distinct_of_shared ((DistinctProducedKeys.perm_iff hperm).mp hd)
  rcases validate_fails_or_ok (ρ := ρ) ps' cs with hok | ⟨e, he⟩
  · exact absurd (validate_ok hρ hok).2.1 hnd
  · refine ⟨e, he, produceDataGraph_of_validate_error he, fun hc => ?_⟩
    rcases validate_error hρ he with ⟨k, _, hk⟩ | ⟨k, hek, hk⟩ | ⟨k, _, _, hd, _⟩ |
      ⟨k, _, _, hd, _⟩
    · exact absurd (ConsumedTypesDiffer.of_perm_producers hperm ⟨k, hk⟩) hc
    · exact ⟨k, hek, hk.of_perm hperm⟩
    · exact absurd hd hnd
    · exact absurd hd hnd

/-- C5 (amended), at the producers `dupFirst`, `dupSecond` of the key "k", in the order
`dupSecond`, `dupFirst`. -/
theorem duplicate_producer_fails_witness :
    SharedProducedKey [dupFirst, dupSecond] ∧
    validateKeysAndTypes .stored [dupSecond, dupFirst] [] = .error (.duplicateProducer "k") ∧
    ∃ e, validateKeysAndTypes .stored [dupSecond, dupFirst] [] = .error e ∧
      produceDataGraph .stored [dupSecond, dupFirst] [] = some (.error e) ∧
      (¬ ConsumedTypesDiffer [dupFirst, dupSecond] [] →
        ∃ k, e = .duplicateProducer k ∧ ProducedTwice [dupFirst, dupSecond] k) :=
  have h : SharedProducedKey [dupFirst, dupSecond] :=
    ⟨0, 1, dupFirst, dupSecond, "k", by decide, rfl, rfl, by decide, by decide⟩
  ⟨h, rfl, duplicate_producer_fails .stored RangeOrder.fair_stored [dupFirst, dupSecond] [] h
    [dupSecond, dupFirst] (List.Perm.swap _ _ _)⟩

/-! ## C6: a consumed key with another type -/

/-- C6, as stated, fails: `dupSecondMismatch` consumes "k" as a float32 while the producers
declare it as an int, and `validateKeysAndTypes` (hence `produceDataGraph`) fails with the
duplicate-producer error for "k", whatever the range order. -/
theorem type_mismatch_counterexample :
    ProducedTypeDiffersAt [dupFirst, dupSecondMismatch] [] "k" ∧
    validateKeysAndTypes .stored [dupFirst, dupSecondMismatch] [] =
      .error (.duplicateProducer "k") ∧
    ReturnsForEveryOrder (fun ρ => validateKeysAndTypes ρ [dupFirst, dupSecondMismatch] [])
      (.error (.duplicateProducer "k")) ∧
    ReturnsForEveryOrder (fun ρ => produceDataGraph ρ [dupFirst, dupSecondMismatch] [])
      (some (.error (.duplicateProducer "k"))) := by
  have hv : ReturnsForEveryOrder
      (fun ρ => validateKeysAndTypes ρ [dupFirst, dupSecondMismatch] [])
      (.error (.duplicateProducer "k")) := by
    intro ρ hρ
    simp [validateKeysAndTypes, scoringLoop, producerLoop, consumeLoop, produceLoop,
      dupFirst, dupSecondMismatch, entries, hρ.order_nil, hρ.order_singleton, mapGet,
      mapSet, mapHas]
  refine ⟨⟨.int, .float32, by decide, by decide, by decide⟩, rfl, hv,
    fun ρ hρ => produceDataGraph_of_validate_error (hv ρ hρ)⟩

/-- C6 (amended): when some plugin declares a consumed key with a type other than the one
the key's producer declares, or other than the one another plugin declares for it, then
`validateKeysAndTypes` returns an error and `produceDataGraph` returns the same error and
no graph.  The error is one of the two type errors, naming a key whose types differ,
whenever no key is produced twice and every consumed key is produced. -/
theorem type_mismatch_fails (ρ : RangeOrder) (hρ : ρ.Fair) (ps : List DataSourcePlugin)
    (cs : List DataConsumingPlugin)
    (h : ConsumedTypesDiffer ps cs ∨ ProducedTypeDiffers ps cs) :
    ∃ e, validateKeysAndTypes ρ ps cs = .error e ∧
      produceDataGraph ρ ps cs = some (.error e) ∧
      (∀ g, produceDataGraph ρ ps cs ≠ some (.ok g)) ∧
      (DistinctProducedKeys ps → ¬ HasUnmetKey ps cs →
        (∃ k, e = .conflictingTypes k ∧ ConsumedTypesDifferAt ps cs k) ∨
        (∃ k, e = .typeMismatch k ∧ ProducedTypeDiffersAt ps cs k)) := by
  rcases validate_fails_or_ok (ρ := ρ) ps cs with hok | ⟨e, he⟩
  · exfalso
    obtain ⟨hsub, hd, hc⟩ := validate_ok hρ hok
    rcases h with h | ⟨k, t, v, ht, hv, hne⟩
    · exact hc h
    · exact hne (mem_unique_of_distinct hd ht (hsub _ hv))
  · have hg := produceDataGraph_of_validate_error he
    refine ⟨e, he, hg, fun g hgg => ?_, fun hd hu => ?_⟩
    · rw [hg] at hgg
      simp at hgg
    · rcases validate_error hρ he with ⟨k, hek, hk⟩ | ⟨k, _, hk⟩ | ⟨k, _, hk, _⟩ |
        ⟨k, hek, hk, _⟩
      · exact Or.inl ⟨k, hek, hk⟩
      · exact absurd hd hk.not_distinct_of_twice
      · exact absurd ⟨k, hk⟩ hu
      · exact Or.inr ⟨k, hek, hk⟩

/-- C6 (amended), at the producer `intCacheSource` and one scoring plugin, which consumes
"kv-cache-utilization" as a float32. -/
theorem type_mismatch_fails_witness :
    (ConsumedTypesDiffer [intCacheSource] [{}] ∨ ProducedTypeDiffers [intCacheSource] [{}]) ∧
    validateKeysAndTypes .stored [intCacheSource] [{}] =
      .error (.typeMismatch "kv-cache-utilization") ∧
    ∃ e, validateKeysAndTypes .stored [intCacheSource] [{}] = .error e ∧
      produceDataGraph .stored [intCacheSource] [{}] = some (.error e) ∧
      (∀ g, produceDataGraph .stored [intCacheSource] [{}] ≠ some (.ok g)) ∧
      (DistinctProducedKeys [intCacheSource] → ¬ HasUnmetKey [intCacheSource] [{}] →
        (∃ k, e = .conflictingTypes k ∧ ConsumedTypesDifferAt [intCacheSource] [{}] k) ∨
        (∃ k, e = .typeMismatch k ∧ ProducedTypeDiffersAt [intCacheSource] [{}] k)) :=
  have h : ConsumedTypesDiffer [intCacheSource] [{}] ∨
      ProducedTypeDiffers [intCacheSource] [{}] :=
    Or.inr ⟨"kv-cache-utilization", .int, .float32, by decide, by decide, by decide⟩
  ⟨h, rfl, type_mismatch_fails .stored RangeOrder.fair_stored [intCacheSource] [{}] h⟩

theorem perm_pair {α : Type} {l : List α} {x y : α} (hp : l.Perm [x, y]) :
    l = [x, y] ∨ l = [y, x] := by
  have hlen := hp.length_eq
  match l, hlen with
  | [a, b], _ =>
    have ha : a ∈ [x, y] := hp.subset (List.mem_cons_self _ _)
    simp only [List.mem_cons, List.mem_singleton, List.not_mem_nil, or_false] at ha
    rcases ha with rfl | rfl
    · have := List.Perm.cons_inv hp
      rw [List.perm_singleton.mp this.symm]
      exact Or.inl rfl
    · have hp' : [a, b].Perm [a, x] := hp.trans (List.Perm.swap _ _ _)
      have := List.Perm.cons_inv hp'
      rw [List.perm_singleton.mp this.symm]
      exact Or.inr rfl

/-! ## C1: independent roots and a dependent producer -/

/-- C1 at the producers `rootA`, `rootB`, `dependentC` and no consumer: every consumed key
is produced once with the consumer's type and there is no cycle, validation passes, and
`produceDataGraph` returns the error of line 118 and no graph, whatever the range order. -/
theorem independent_roots_rejected :
    WellTyped [rootA, rootB, dependentC] [] ∧ Acyclic [rootA, rootB, dependentC] ∧
    produceDataGraph .stored [rootA, rootB, dependentC] [] = some (.error .circularSources) ∧
    ReturnsForEveryOrder (fun ρ => validateKeysAndTypes ρ [rootA, rootB, dependentC] [])
      (.ok ()) ∧
    ReturnsForEveryOrder (fun ρ => produceDataGraph ρ [rootA, rootB, dependentC] [])
      (some (.error .circularSources)) := by
  have hv : ReturnsForEveryOrder
      (fun ρ => validateKeysAndTypes ρ [rootA, rootB, dependentC] []) (.ok ()) := by
    intro ρ hρ
    simp [validateKeysAndTypes, scoringLoop, producerLoop, consumeLoop, produceLoop, checkLoop,
      rootA, rootB, dependentC, entries, hρ.order_nil, hρ.order_singleton, mapGet,
      mapSet, mapHas]
  refine ⟨by unfold WellTyped DistinctProducedKeys; decide,
    ⟨[rootA, rootB, dependentC], List.Perm.refl _, by decide, by decide⟩, rfl, hv, ?_⟩
  intro ρ hρ
  have hp := hρ.order_pair ("A", 0) ("B", 1)
  simp only [produceDataGraph, hv ρ hρ]
  rcases hp with hp | hp <;>
  simp [sourceLoop, sourceStep, promoteRoot, promoteDependent, resolveDeps, scanSources,
      producesKey, rootA, rootB, dependentC, entries, hρ.order_nil, hρ.order_singleton, mapGet,
      mapSet, mapHas, hp]

/-! ## C2: a dependent producer listed before its source -/

/-- C2 at the producers `dependentC`, `rootA` in this order: the input is well typed and
acyclic, `produceDataGraph` succeeds, and the node of `dependentC` (pointer 0) has an empty
`Consumes` map although the plugin declares the consumed key "a"; the node of `rootA` has no
dependent.  In the order `rootA`, `dependentC` the same plugins give the expected edges. -/
theorem dependent_first_loses_upstream :
    WellTyped [dependentC, rootA] [] ∧ Acyclic [dependentC, rootA] ∧
    produceDataGraph .stored [dependentC, rootA] [] = some (.ok dependentFirstGraph) ∧
    ReturnsForEveryOrder (fun ρ => produceDataGraph ρ [dependentC, rootA] [])
      (some (.ok dependentFirstGraph)) ∧
    (dependentFirstGraph.heap.get? 0).map (·.Consumes) = some (some []) ∧
    ReturnsForEveryOrder (fun ρ => produceDataGraph ρ [rootA, dependentC] [])
      (some (.ok rootFirstGraph)) ∧
    (rootFirstGraph.heap.get? 1).map (·.Consumes) = some (some [("a", 0)]) := by
  refine ⟨by unfold WellTyped DistinctProducedKeys; decide,
    ⟨[rootA, dependentC], List.Perm.swap _ _ _, by decide, by decide⟩, rfl, ?_, rfl, ?_, rfl⟩
  · intro ρ hρ
    simp [produceDataGraph, validateKeysAndTypes, scoringLoop, producerLoop, consumeLoop,
      produceLoop, checkLoop, sourceLoop, consumerLoop, sourceStep, promoteRoot,
      promoteDependent, resolveDeps, scanSources, producesKey, rootA, dependentC, entries,
      hρ.order_nil, hρ.order_singleton, mapGet, mapSet, mapHas, dependentFirstGraph]
  · intro ρ hρ
    simp [produceDataGraph, validateKeysAndTypes, scoringLoop, producerLoop, consumeLoop,
      produceLoop, checkLoop, sourceLoop, consumerLoop, sourceStep, promoteRoot,
      promoteDependent, resolveDeps, scanSources, producesKey, addDependent, rootA,
      dependentC, entries, hρ.order_nil, hρ.order_singleton, mapGet, mapSet, mapHas,
      rootFirstGraph]

/-! ## C3: a cycle of two producers -/

/-- C3 at the producers `cycleX`, `cycleY`: each consumes the key that only the other
produces, so the list has a cycle, and `produceDataGraph` returns a graph and no error,
whatever the range order: `cycleX` is promoted with an empty `Consumes` map. -/
theorem two_cycle_accepted :
    DependsOn cycleX cycleY ∧ DependsOn cycleY cycleX ∧ ¬ Acyclic [cycleX, cycleY] ∧
    produceDataGraph .stored [cycleX, cycleY] [] = some (.ok cycleGraph) ∧
    ReturnsForEveryOrder (fun ρ => produceDataGraph ρ [cycleX, cycleY] [])
      (some (.ok cycleGraph)) := by
  refine ⟨by decide, by decide, ?_, rfl, ?_⟩
  · rintro ⟨l, hl, hpw, -⟩
    rcases perm_pair hl with rfl | rfl
    · revert hpw; decide
    · revert hpw; decide
  · intro ρ hρ
    have hv : validateKeysAndTypes ρ [cycleX, cycleY] [] = .ok () := by
      rcases hρ.order_pair ("y", GoType.int) ("x", GoType.int) with hp | hp <;>
      simp [validateKeysAndTypes, scoringLoop, producerLoop, consumeLoop, produceLoop,
        checkLoop, cycleX, cycleY, entries, hρ.order_nil, hρ.order_singleton, mapGet,
        mapSet, mapHas, hp]
    simp only [produceDataGraph, hv]
    simp [sourceLoop, consumerLoop, sourceStep, promoteRoot,
      promoteDependent, resolveDeps, scanSources, producesKey, addDependent, cycleX, cycleY,
      entries, hρ.order_nil, hρ.order_singleton, mapGet, mapSet, mapHas, cycleGraph]

/-! ## C7: the returned list -/

/-- C7, as stated, fails: for the producer `cacheSource` and one scoring plugin,
`produceDataGraph` returns the list of both nodes, whatever the range order; its second
element is the node of the scoring plugin, whose `Consumes` map is not empty. -/
theorem returned_list_counterexample :
    produceDataGraph .stored [cacheSource] [{}] = some (.ok cacheGraph) ∧
    ReturnsForEveryOrder (fun ρ => produceDataGraph ρ [cacheSource] [{}])
      (some (.ok cacheGraph)) ∧
    cacheGraph.nodes = [0, 1] ∧
    (cacheGraph.heap.get? 1).map (·.Consumes) = some (some [("kv-cache-utilization", 0)]) := by
  refine ⟨rfl, ?_, rfl, rfl⟩
  intro ρ hρ
  simp [produceDataGraph, validateKeysAndTypes, scoringLoop, producerLoop, consumeLoop,
    produceLoop, checkLoop, sourceLoop, consumerLoop, sourceStep, consumerStep, promoteRoot,
    promoteDependent, resolveDeps, scanSources, producesKey, addDependent, cacheSource,
    DataConsumingPlugin.Name, DataConsumingPlugin.Consumes, entries,
    hρ.order_nil, hρ.order_singleton, mapGet, mapSet, mapHas, cacheGraph]

/-! ## Lemmas on the promotion loops -/

theorem length_addDependent (name : String) (node : NodePtr) (heap : List DependencyNode)
    (source : NodePtr) : (addDependent name node heap source).length = heap.length := by
  induction heap generalizing source with
  | nil => simp [addDependent]
  | cons n heap ih =>
    cases source with
    | zero => simp [addDependent]
    | succ s => simp [addDependent, ih]

theorem length_foldl_addDependent (name : String) (ptr : NodePtr) (l : GoMap NodePtr)
    (heap : List DependencyNode) :
    (l.foldl (fun h src => addDependent name ptr h src.2) heap).length = heap.length := by
  induction l generalizing heap with
  | nil => rfl
  | cons x l ih => simp [List.foldl_cons, ih, length_addDependent]

theorem mem_mapKeys_mapSet {V : Type} (m : GoMap V) (k k' : String) (v : V) :
    k' ∈ mapKeys (mapSet m k v) ↔ k' = k ∨ k' ∈ mapKeys m := by
  by_cases h : k ∈ mapKeys m
  · rw [mapKeys_mapSet_of_mem m v h]
    constructor
    · exact Or.inr
    · rintro (rfl | h')
      · exact h
      · exact h'
  · rw [mapSet_of_not_mem m v h]
    simp [mapKeys, or_comm]

theorem StateInv.init (names : List String) :
    StateInv names { heap := [], baseSources := [], sourceAdded := [] } :=
  ⟨rfl, rfl, by simp [MapWF, mapKeys], by simp [mapKeys]⟩

theorem StateInv.mono {names names' : List String} {st : BuildState}
    (h : StateInv names st) (hsub : ∀ k ∈ names, k ∈ names') : StateInv names' st :=
  ⟨h.1, h.2.1, h.2.2.1, fun k hk => hsub k (h.2.2.2 k hk)⟩

theorem StateInv.length_le {names : List String} {st : BuildState} (h : StateInv names st) :
    st.sourceAdded.length ≤ names.length := by
  have h1 : (mapKeys st.sourceAdded).length ≤ names.length :=
    (List.Nodup.subperm h.2.2.1 h.2.2.2).length_le
  simpa [mapKeys] using h1

theorem StateInv.record {names : List String} {st : BuildState} (h : StateInv names st)
    {name : String} (hnew : mapHas st.sourceAdded name = false) (hname : name ∈ names)
    (heap : List DependencyNode) (hlen : heap.length = st.heap.length)
    (node : DependencyNode) :
    StateInv names
      { heap := heap ++ [node]
        baseSources := st.baseSources ++ [st.heap.length]
        sourceAdded := mapSet st.sourceAdded name st.heap.length } := by
  have hnot : name ∉ mapKeys st.sourceAdded := by
    intro hmem
    rw [(mapHas_iff _ _).mpr hmem] at hnew
    exact Bool.noConfusion hnew
  refine ⟨?_, ?_, h.2.2.1.mapSet _ _, ?_⟩
  · simp only [List.length_append, List.length_singleton, hlen, List.range_succ, h.1]
  · simp only [length_mapSet_of_not_mem _ _ hnot, h.2.1, List.length_append,
      List.length_singleton, hlen]
  · intro k hk
    rcases (mem_mapKeys_mapSet _ _ _ _).mp hk with rfl | hk
    · exact hname
    · exact h.2.2.2 k hk

theorem StateInv.promoteRoot {names : List String} {st : BuildState} (h : StateInv names st)
    {name : String} (hnew : mapHas st.sourceAdded name = false) (hname : name ∈ names)
    (produces : Option (GoMap GoType)) : StateInv names (promoteRoot st name produces) :=
  h.record hnew hname st.heap rfl _

theorem StateInv.promoteDependent {names : List String} {st : BuildState}
    (h : StateInv names st) {name : String} (hnew : mapHas st.sourceAdded name = false)
    (hname : name ∈ names) (ρ : RangeOrder) (consumes : GoMap NodePtr)
    (produces : Option (GoMap GoType)) :
    StateInv names (promoteDependent ρ st name consumes produces) :=
  h.record hnew hname _ (length_foldl_addDependent _ _ _ _) _

theorem StateInv.sourceStep {names : List String} {st : BuildState} (h : StateInv names st)
    (ρ : RangeOrder) {dsp : DataSourcePlugin} (hname : dsp.Name ∈ names) :
    StateInv names (sourceStep ρ st dsp) := by
  unfold Gateway.sourceStep
  split
  · exact h
  · next hnew =>
    have hnew' : mapHas st.sourceAdded dsp.Name = false := by simpa using hnew
    split
    · exact h.promoteRoot hnew' hname _
    · simp only
      split
      · exact h.promoteDependent hnew' hname ρ _ _
      · exact h

theorem StateInv.consumerStep {names : List String} {st : BuildState} (h : StateInv names st)
    (ρ : RangeOrder) {dcp : DataConsumingPlugin} (hname : dcp.Name ∈ names) :
    StateInv names (consumerStep ρ st dcp) := by
  unfold Gateway.consumerStep
  split
  · exact h
  · next hnew =>
    have hnew' : mapHas st.sourceAdded dcp.Name = false := by simpa using hnew
    simp only
    split
    · exact h.promoteDependent hnew' hname ρ _ _
    · exact h

theorem StateInv.sourcePass {names : List String} (ρ : RangeOrder)
    (l : List DataSourcePlugin) (hl : ∀ p ∈ l, p.Name ∈ names) {st : BuildState}
    (h : StateInv names st) : StateInv names (l.foldl (Gateway.sourceStep ρ) st) := by
  induction l generalizing st with
  | nil => exact h
  | cons p l ih =>
    exact ih (fun q hq => hl q (List.mem_cons_of_mem _ hq))
      (h.sourceStep ρ (hl p (List.mem_cons_self _ _)))

theorem StateInv.consumerPass {names : List String} (ρ : RangeOrder)
    (l : List DataConsumingPlugin) (hl : ∀ p ∈ l, p.Name ∈ names) {st : BuildState}
    (h : StateInv names st) : StateInv names (l.foldl (Gateway.consumerStep ρ) st) := by
  induction l generalizing st with
  | nil => exact h
  | cons p l ih =>
    exact ih (fun q hq => hl q (List.mem_cons_of_mem _ hq))
      (h.consumerStep ρ (hl p (List.mem_cons_self _ _)))

theorem sourceLoop_ok (names : List String) {ρ : RangeOrder} {ps : List DataSourcePlugin}
    (hps : ∀ p ∈ ps, p.Name ∈ names) {fuel : Nat} {st st' : BuildState}
    (h : sourceLoop ρ ps fuel st = some (.ok st')) (hst : StateInv names st) :
    StateInv names st' ∧ ps.length ≤ st'.sourceAdded.length := by
  induction fuel generalizing st with
  | zero =>
    unfold sourceLoop at h
    split at h
    · exact Option.noConfusion h
    · next hlt =>
      simp only [Option.some.injEq, Except.ok.injEq] at h
      subst h
      exact ⟨hst, Nat.le_of_not_lt hlt⟩
  | succ fuel ih =>
    unfold sourceLoop at h
    split at h
    · simp only at h
      split at h
      · simp at h
      · exact ih h (hst.sourcePass ρ ps hps)
    · next hlt =>
      simp only [Option.some.injEq, Except.ok.injEq] at h
      subst h
      exact ⟨hst, Nat.le_of_not_lt hlt⟩

theorem consumerLoop_ok (names : List String) {ρ : RangeOrder} {ps : List DataSourcePlugin}
    {cs : List DataConsumingPlugin} (hcs : ∀ p ∈ cs, p.Name ∈ names) {fuel : Nat}
    {st st' : BuildState} (h : consumerLoop ρ ps cs fuel st = some (.ok st'))
    (hst : StateInv names st) :
    StateInv names st' ∧ ps.length + cs.length ≤ st'.sourceAdded.length := by
  induction fuel generalizing st with
  | zero =>
    unfold consumerLoop at h
    split at h
    · exact Option.noConfusion h
    · next hlt =>
      simp only [Option.some.injEq, Except.ok.injEq] at h
      subst h
      exact ⟨hst, Nat.le_of_not_lt hlt⟩
  | succ fuel ih =>
    unfold consumerLoop at h
    split at h
    · simp only at h
      split at h
      · simp at h
      · exact ih h (hst.consumerPass ρ cs hcs)
    · next hlt =>
      simp only [Option.some.injEq, Except.ok.injEq] at h
      subst h
      exact ⟨hst, Nat.le_of_not_lt hlt⟩

/-- The final state behind a graph that `produceDataGraph` returns. -/
theorem produceDataGraph_ok {ρ : RangeOrder} {ps : List DataSourcePlugin}
    {cs : List DataConsumingPlugin} {g : DataGraph}
    (h : produceDataGraph ρ ps cs = some (.ok g)) :
    ∃ st1 st2, validateKeysAndTypes ρ ps cs = .ok () ∧
      sourceLoop ρ ps ps.length { heap := [], baseSources := [], sourceAdded := [] } =
        some (.ok st1) ∧
      consumerLoop ρ ps cs cs.length st1 = some (.ok st2) ∧
      g = { nodes := st2.baseSources, heap := st2.heap } := by
  unfold produceDataGraph at h
  split at h
  · simp at h
  · next hv =>
    split at h
    · simp at h
    · simp at h
    · next st1 h1 =>
      split at h
      · simp at h
      · simp at h
      · next st2 h2 =>
        simp only [Option.some.injEq, Except.ok.injEq] at h
        exact ⟨st1, st2, hv, h1, h2, h.symm⟩

/-- C7 (amended): on success the list returned by `produceDataGraph` consists of every node
of the graph, in promotion order: one node per producer and per consumer, the nodes with an
upstream as well as the roots. -/
theorem returned_list_is_all_nodes (ρ : RangeOrder) (ps : List DataSourcePlugin)
    (cs : List DataConsumingPlugin) (g : DataGraph)
    (h : produceDataGraph ρ ps cs = some (.ok g)) :
    g.nodes = List.range g.heap.length ∧ g.heap.length = ps.length + cs.length := by
  obtain ⟨st1, st2, -, h1, h2, rfl⟩ := produceDataGraph_ok h
  have hps : ∀ p ∈ ps, p.Name ∈ ps.map (·.Name) ++ cs.map (·.Name) := fun p hp =>
    List.mem_append_left _ (List.mem_map_of_mem _ hp)
  have hcs : ∀ p ∈ cs, p.Name ∈ ps.map (·.Name) ++ cs.map (·.Name) := fun p hp =>
    List.mem_append_right _ (List.mem_map_of_mem _ hp)
  have i1 := sourceLoop_ok _ hps h1 (StateInv.init _)
  have i2 := consumerLoop_ok _ hcs h2 i1.1
  refine ⟨i2.1.1, ?_⟩
  have hle := i2.1.length_le
  simp only [List.length_append, List.length_map] at hle
  have := i2.1.2.1
  simp only at this ⊢
  omega

/-- C7 (amended), at the producer `cacheSource` and one scoring plugin: the returned list is
`[0, 1]`, the root and the node of the scoring plugin. -/
theorem returned_list_is_all_nodes_witness :
    ∃ g, produceDataGraph .stored [cacheSource] [{}] = some (.ok g) ∧
      g.nodes = List.range g.heap.length ∧ g.heap.length = 1 + 1 :=
  ⟨_, rfl, returned_list_is_all_nodes .stored [cacheSource] [{}] _ rfl⟩

/-! ## Lemmas on RandomWeightedDraw -/

theorem wrapInt32_eq_self {x : Int} (h1 : -2147483648 ≤ x) (h2 : x < 2147483648) :
    wrapInt32 x = x := by
  unfold wrapInt32
  omega

theorem totalWeight_cons (m : TargetModel) (rest : List TargetModel) :
    totalWeight (m :: rest) = weightOf m + totalWeight rest := by
  simp [totalWeight]

theorem cumWeight_zero (tms : List TargetModel) : cumWeight tms 0 = 0 := by
  simp [cumWeight, totalWeight]

theorem cumWeight_cons_succ (m : TargetModel) (rest : List TargetModel) (n : Nat) :
    cumWeight (m :: rest) (n + 1) = weightOf m + cumWeight rest n := by
  simp [cumWeight, totalWeight]

theorem WeightsSet.tail {m : TargetModel} {rest : List TargetModel}
    (h : WeightsSet (m :: rest)) : WeightsSet rest :=
  fun x hx => h x (List.mem_cons_of_mem _ hx)

theorem WeightsSet.head {m : TargetModel} {rest : List TargetModel}
    (h : WeightsSet (m :: rest)) :
    ∃ w : Int, m.Weight = some w ∧ weightOf m = w ∧ 0 ≤ w ∧ w < 2147483648 := by
  obtain ⟨w, hw, h0, h1⟩ := h m (List.mem_cons_self _ _)
  exact ⟨w, hw, by simp [weightOf, hw], h0, h1⟩

theorem cumWeight_mono {tms : List TargetModel} (h : WeightsSet tms) {a b : Nat}
    (hab : a ≤ b) : cumWeight tms a ≤ cumWeight tms b := by
  induction tms generalizing a b with
  | nil => simp [cumWeight, totalWeight]
  | cons m rest ih =>
    obtain ⟨w, -, hw, h0, -⟩ := h.head
    cases a with
    | zero =>
      rw [cumWeight_zero]
      cases b with
      | zero => rw [cumWeight_zero]
      | succ b =>
        rw [cumWeight_cons_succ]
        have := ih h.tail (Nat.zero_le b)
        rw [cumWeight_zero] at this
        omega
    | succ a =>
      cases b with
      | zero => omega
      | succ b =>
        rw [cumWeight_cons_succ, cumWeight_cons_succ]
        have := ih h.tail (Nat.le_of_succ_le_succ hab)
        omega

theorem cumWeight_nonneg {tms : List TargetModel} (h : WeightsSet tms) (n : Nat) :
    0 ≤ cumWeight tms n := by
  have := cumWeight_mono h (Nat.zero_le n)
  rwa [cumWeight_zero] at this

theorem cumWeight_le_total {tms : List TargetModel} (h : WeightsSet tms) (n : Nat) :
    cumWeight tms n ≤ totalWeight tms := by
  have h1 := cumWeight_mono h (Nat.le_max_left n tms.length)
  have h2 : cumWeight tms (max n tms.length) = totalWeight tms := by
    unfold cumWeight
    rw [List.take_of_length_le (Nat.le_max_right _ _)]
  rwa [h2] at h1

theorem cumWeight_succ_of_get {tms : List TargetModel} {i : Nat} {m : TargetModel}
    (hm : tms[i]? = some m) : cumWeight tms (i + 1) = cumWeight tms i + weightOf m := by
  induction tms generalizing i with
  | nil => simp at hm
  | cons x rest ih =>
    cases i with
    | zero =>
      simp only [List.getElem?_cons_zero, Option.some.injEq] at hm
      subst hm
      simp [cumWeight_cons_succ, cumWeight_zero]
    | succ i =>
      simp only [List.getElem?_cons_succ] at hm
      rw [cumWeight_cons_succ, cumWeight_cons_succ, ih hm]
      ring

/-- The walk stops at the first variant whose cumulative weight exceeds the draw. -/
theorem weightedWalk_selects {tms : List TargetModel} (h : WeightsSet tms) {r : Int}
    (h0 : 0 ≤ r) (hlt : r < totalWeight tms) (h32 : r < 2147483648) :
    ∃ i m, tms[i]? = some m ∧ IsFirstExceeding tms r i ∧ weightedWalk tms r = .ok m.Name := by
  induction tms generalizing r with
  | nil => simp [totalWeight] at hlt; omega
  | cons x rest ih =>
    obtain ⟨w, hw, hwo, hw0, hw1⟩ := h.head
    rw [totalWeight_cons, hwo] at hlt
    by_cases hr : r < w
    · refine ⟨0, x, by simp, ⟨by simp, ?_, fun j hj => absurd hj (Nat.not_lt_zero j)⟩, ?_⟩
      · rw [cumWeight_cons_succ, cumWeight_zero, hwo]
        omega
      · simp [weightedWalk, hw, hr]
    · have hr' : w ≤ r := not_lt.mp hr
      obtain ⟨i, m, hm, ⟨hi, hex, hbefore⟩, hwalk⟩ :=
        ih h.tail (r := r - w) (by omega) (by omega) (by omega)
      refine ⟨i + 1, m, by simpa using hm, ⟨by simpa using hi, ?_, ?_⟩, ?_⟩
      · rw [cumWeight_cons_succ, hwo]
        omega
      · intro j hj
        cases j with
        | zero =>
          rw [cumWeight_cons_succ, cumWeight_zero, hwo]
          omega
        | succ j =>
          rw [cumWeight_cons_succ, hwo]
          have := hbefore j (by omega)
          omega
      · simp only [weightedWalk, hw, hr, if_false]
        rw [wrapInt32_eq_self (by omega) (by omega)]
        exact hwalk

/-- The draws that select the variant at index `i` are the `weight_i` integers from its
cumulative offset on. -/
theorem isFirstExceeding_iff {tms : List TargetModel} (h : WeightsSet tms) {i : Nat}
    {m : TargetModel} (hm : tms[i]? = some m) (r : Int) :
    (IsFirstExceeding tms r i ∧ 0 ≤ r) ↔
      (cumWeight tms i ≤ r ∧ r < cumWeight tms i + weightOf m) := by
  have hi : i < tms.length := (List.getElem?_eq_some.mp hm).1
  rw [← cumWeight_succ_of_get hm]
  constructor
  · rintro ⟨⟨-, hex, hbefore⟩, h0⟩
    refine ⟨?_, hex⟩
    cases i with
    | zero => rwa [cumWeight_zero]
    | succ i => exact hbefore i (Nat.lt_succ_self i)
  · rintro ⟨hle, hex⟩
    refine ⟨⟨hi, hex, fun j hj => le_trans (cumWeight_mono h (Nat.succ_le_of_lt hj)) hle⟩, ?_⟩
    exact le_trans (cumWeight_nonneg h i) hle

theorem card_draws_selecting {tms : List TargetModel} (h : WeightsSet tms) {i : Nat}
    {m : TargetModel} (hm : tms[i]? = some m) :
    ((Finset.Ico 0 (totalWeight tms)).filter (fun r => IsFirstExceeding tms r i)).card =
      (weightOf m).toNat := by
  have heq : (Finset.Ico 0 (totalWeight tms)).filter (fun r => IsFirstExceeding tms r i) =
      Finset.Ico (cumWeight tms i) (cumWeight tms i + weightOf m) := by
    ext r
    simp only [Finset.mem_filter, Finset.mem_Ico]
    have hiff := isFirstExceeding_iff h hm r
    have h1 := cumWeight_le_total h (i + 1)
    rw [cumWeight_succ_of_get hm] at h1
    constructor
    · rintro ⟨⟨h0, -⟩, hf⟩
      exact hiff.mp ⟨hf, h0⟩
    · intro hr
      obtain ⟨hf, h0⟩ := hiff.mpr hr
      exact ⟨⟨h0, by omega⟩, hf⟩
  rw [heq, Int.card_Ico]
  congr 1
  ring

theorem sumWeights_eq {tms : List TargetModel} (h : WeightsSet tms) (acc : Int)
    (h0 : 0 ≤ acc) (hlt : acc + totalWeight tms < 2147483648) :
    sumWeights tms acc = .ok (acc + totalWeight tms) := by
  induction tms generalizing acc with
  | nil => simp [sumWeights, totalWeight]
  | cons x rest ih =>
    obtain ⟨w, hw, hwo, hw0, hw1⟩ := h.head
    rw [totalWeight_cons, hwo] at hlt ⊢
    have hrest : 0 ≤ totalWeight rest := by
      have := cumWeight_nonneg h.tail rest.length
      unfold cumWeight at this
      rwa [List.take_length] at this
    simp only [sumWeights, hw]
    rw [wrapInt32_eq_self (by omega) (by omega), ih h.tail _ (by omega) (by omega)]
    congr 1
    ring

/-- Without `int32` overflow the function is the walk at the first draw of the source. -/
theorem RandomWeightedDraw_eq_walk (rng : Rand) (globalDraw : Int) (model : InferenceModel)
    (seed : Int) (h : WeightsSet model.Spec.TargetModels)
    (hpos : 0 < totalWeight model.Spec.TargetModels)
    (hlt : totalWeight model.Spec.TargetModels < 2147483648) :
    RandomWeightedDraw rng globalDraw model seed =
      weightedWalk model.Spec.TargetModels
        (rng.int31n (if seed > 0 then seed else globalDraw)
          (totalWeight model.Spec.TargetModels)) := by
  have hs := sumWeights_eq h 0 le_rfl (by omega)
  simp only [zero_add] at hs
  simp only [RandomWeightedDraw, hs]
  rw [if_neg (by omega)]

theorem isFirstExceeding_unique {tms : List TargetModel} {r : Int} {i j : Nat}
    (hi : IsFirstExceeding tms r i) (hj : IsFirstExceeding tms r j) : i = j := by
  rcases Nat.lt_trichotomy i j with h | h | h
  · have := hj.2.2 i h
    have := hi.2.1
    omega
  · exact h
  · have := hi.2.2 j h
    have := hj.2.1
    omega

theorem weightedWalk_of_isFirstExceeding {tms : List TargetModel} (h : WeightsSet tms)
    {r : Int} (h0 : 0 ≤ r) (hlt : r < totalWeight tms) (h32 : r < 2147483648) {i : Nat}
    {m : TargetModel} (hm : tms[i]? = some m) (hi : IsFirstExceeding tms r i) :
    weightedWalk tms r = .ok m.Name := by
  obtain ⟨j, m', hm', hj, hwalk⟩ := weightedWalk_selects h h0 hlt h32
  have hij := isFirstExceeding_unique hi hj
  subst hij
  rw [hm] at hm'
  cases hm'
  exact hwalk

theorem sampleRand_valid : sampleRand.Valid := by
  intro s n hn
  exact ⟨Int.emod_nonneg s (by omega), Int.emod_lt_of_pos s hn⟩

/-! ## C8: the walk of RandomWeightedDraw -/

/-- C8, as stated, fails: the model whose only variant is named "" with weight 1 has
non-negative weights of sum 1, the draw 0 selects that variant (index 0 is the first whose
cumulative weight exceeds 0), and the walk returns its name, the empty string; so does
`RandomWeightedDraw`. -/
theorem empty_name_counterexample :
    WeightsSet unnamedModel.Spec.TargetModels ∧
    totalWeight unnamedModel.Spec.TargetModels = 1 ∧
    IsFirstExceeding unnamedModel.Spec.TargetModels 0 0 ∧
    weightedWalk unnamedModel.Spec.TargetModels 0 = .ok "" ∧
    sampleRand.Valid ∧
    RandomWeightedDraw sampleRand 0 unnamedModel 7 = .ok "" := by
  refine ⟨?_, by decide, by decide, rfl, sampleRand_valid, rfl⟩
  unfold WeightsSet
  decide

/-- C8 (amended): for a model whose weights are set and non-negative, with sum `S > 0`, and
for every `int32` draw `r` with `0 ≤ r < S`, some variant is the first in declaration order
whose cumulative weight exceeds `r`, and the walk returns the name of that variant, which is
not the empty string when no variant has the empty name; the variant at index `i` is the one
selected for exactly `weight_i` of the `S` draws; and when the `int32` sum does not overflow,
`RandomWeightedDraw` returns the name of the variant selected by the draw of its
generator. -/
theorem weighted_walk_follows_weights (model : InferenceModel)
    (hw : WeightsSet model.Spec.TargetModels)
    (hS : 0 < totalWeight model.Spec.TargetModels) :
    (∀ r : Int, 0 ≤ r → r < totalWeight model.Spec.TargetModels → r < 2147483648 →
      (∃ i, IsFirstExceeding model.Spec.TargetModels r i) ∧
      (∀ i m, model.Spec.TargetModels[i]? = some m →
        IsFirstExceeding model.Spec.TargetModels r i →
        weightedWalk model.Spec.TargetModels r = .ok m.Name) ∧
      ((∀ m ∈ model.Spec.TargetModels, m.Name ≠ "") →
        weightedWalk model.Spec.TargetModels r ≠ .ok "")) ∧
    (∀ i m, model.Spec.TargetModels[i]? = some m →
      ((Finset.Ico 0 (totalWeight model.Spec.TargetModels)).filter
        (fun r => IsFirstExceeding model.Spec.TargetModels r i)).card = (weightOf m).toNat) ∧
    (totalWeight model.Spec.TargetModels < 2147483648 →
      ∀ (rng : Rand) (globalDraw seed : Int), rng.Valid →
        ∃ i m, model.Spec.TargetModels[i]? = some m ∧
          IsFirstExceeding model.Spec.TargetModels
            (rng.int31n (if seed > 0 then seed else globalDraw)
              (totalWeight model.Spec.TargetModels)) i ∧
          RandomWeightedDraw rng globalDraw model seed = .ok m.Name) := by
  refine ⟨fun r h0 hlt h32 => ?_, fun i m hm => card_draws_selecting hw hm, ?_⟩
  · obtain ⟨i, m, hm, hi, hwalk⟩ := weightedWalk_selects hw h0 hlt h32
    refine ⟨⟨i, hi⟩, fun j m' hm' hj => weightedWalk_of_isFirstExceeding hw h0 hlt h32 hm' hj,
      fun hname => ?_⟩
    rw [hwalk]
    intro heq
    exact hname m (List.mem_iff_getElem?.mpr ⟨i, hm⟩) (Except.ok.inj heq)
  · intro h32 rng globalDraw seed hrng
    obtain ⟨hd0, hd1⟩ := hrng (if seed > 0 then seed else globalDraw) _ hS
    obtain ⟨i, m, hm, hi, hwalk⟩ := weightedWalk_selects hw hd0 hd1 (by omega)
    exact ⟨i, m, hm, hi, by rw [RandomWeightedDraw_eq_walk rng globalDraw model seed hw hS h32,
      hwalk]⟩

/-- C8 (amended) at the model with the variants `(a, 1)` and `(b, 3)`: the statement holds
there, draw 0 returns "a" and the draws 1, 2, 3 return "b". -/
theorem weighted_walk_follows_weights_witness :
    (WeightsSet sampleModel.Spec.TargetModels ∧ 0 < totalWeight sampleModel.Spec.TargetModels) ∧
    weightedWalk sampleModel.Spec.TargetModels 0 = .ok "a" ∧
    weightedWalk sampleModel.Spec.TargetModels 1 = .ok "b" ∧
    weightedWalk sampleModel.Spec.TargetModels 2 = .ok "b" ∧
    weightedWalk sampleModel.Spec.TargetModels 3 = .ok "b" ∧
    ((Finset.Ico 0 (totalWeight sampleModel.Spec.TargetModels)).filter
        (fun r => IsFirstExceeding sampleModel.Spec.TargetModels r 1)).card = 3 :=
  have hw : WeightsSet sampleModel.Spec.TargetModels := by
    unfold WeightsSet
    decide
  have hS : 0 < totalWeight sampleModel.Spec.TargetModels := by decide
  ⟨⟨hw, hS⟩, rfl, rfl, rfl, rfl,
    (weighted_walk_follows_weights sampleModel hw hS).2.1 1 ⟨"b", some 3⟩ rfl⟩

/-! ## C9: a model of total weight 0 -/

/-- C9 on the code: for every model whose weights are set, non-negative and sum to 0 (a model
without target variants included), `RandomWeightedDraw` does not return: the call
`r.Int31n(0)` of line 98 panics, whatever the generator and the seed. -/
theorem zero_total_weight_panics (rng : Rand) (globalDraw : Int) (model : InferenceModel)
    (seed : Int) (hw : WeightsSet model.Spec.TargetModels)
    (h0 : totalWeight model.Spec.TargetModels = 0) :
    RandomWeightedDraw rng globalDraw model seed = .error .invalidArgumentToInt31n := by
  have hs := sumWeights_eq hw 0 le_rfl (by omega)
  simp only [zero_add, h0] at hs
  simp [RandomWeightedDraw, hs]

/-- C9 on the code, at the model without target variants and at the model whose only
variant has weight 0. -/
theorem zero_total_weight_panics_witness :
    (WeightsSet emptyModel.Spec.TargetModels ∧ totalWeight emptyModel.Spec.TargetModels = 0) ∧
    RandomWeightedDraw sampleRand 5 emptyModel 0 = .error .invalidArgumentToInt31n ∧
    RandomWeightedDraw sampleRand 5 zeroModel 7 = .error .invalidArgumentToInt31n :=
  have hw : WeightsSet emptyModel.Spec.TargetModels := by
    unfold WeightsSet
    decide
  ⟨⟨hw, rfl⟩, zero_total_weight_panics sampleRand 5 emptyModel 0 hw rfl, rfl⟩

/-! ## C10: the seed -/

/-- C10, as stated, fails: with the seed 0 the source is seeded from the process-wide
generator.  For the sample generator, which meets the contract of `Int31n`, and the model
with the variants `(a, 1)` and `(b, 1)`, two calls with the seed 0 return "a" and "b" when
the process-wide generator yields 0 and 1; the same holds for a negative seed. -/
theorem seed_counterexample :
    sampleRand.Valid ∧ WeightsSet evenModel.Spec.TargetModels ∧
    0 < totalWeight evenModel.Spec.TargetModels ∧
    RandomWeightedDraw sampleRand 0 evenModel 0 = .ok "a" ∧
    RandomWeightedDraw sampleRand 1 evenModel 0 = .ok "b" ∧
    RandomWeightedDraw sampleRand 0 evenModel (-3) = .ok "a" ∧
    RandomWeightedDraw sampleRand 1 evenModel (-3) = .ok "b" := by
  refine ⟨sampleRand_valid, ?_, by decide, rfl, rfl, rfl, rfl⟩
  unfold WeightsSet
  decide

/-- C10 (amended): for every model and every seed greater than 0, two calls of
`RandomWeightedDraw` with the same model and seed give the same result whatever the
process-wide generator yields; when the weights are set and non-negative with a positive
total that fits an `int32`, that result is the name of a variant of the model. -/
theorem positive_seed_determines_draw (rng : Rand) (model : InferenceModel) (seed : Int)
    (hseed : 0 < seed) (globalDraw₁ globalDraw₂ : Int) :
    RandomWeightedDraw rng globalDraw₁ model seed =
      RandomWeightedDraw rng globalDraw₂ model seed ∧
    (rng.Valid → WeightsSet model.Spec.TargetModels →
      0 < totalWeight model.Spec.TargetModels →
      totalWeight model.Spec.TargetModels < 2147483648 →
      ∃ m ∈ model.Spec.TargetModels,
        RandomWeightedDraw rng globalDraw₁ model seed = .ok m.Name ∧
        RandomWeightedDraw rng globalDraw₂ model seed = .ok m.Name) := by
  have heq : RandomWeightedDraw rng globalDraw₁ model seed =
      RandomWeightedDraw rng globalDraw₂ model seed := by
    simp [RandomWeightedDraw, hseed]
  refine ⟨heq, fun hrng hw hS h32 => ?_⟩
  obtain ⟨hd0, hd1⟩ := hrng (if seed > 0 then seed else globalDraw₁) _ hS
  obtain ⟨i, m, hm, -, hwalk⟩ := weightedWalk_selects hw hd0 hd1 (by omega)
  have h1 : RandomWeightedDraw rng globalDraw₁ model seed = .ok m.Name := by
    rw [RandomWeightedDraw_eq_walk rng globalDraw₁ model seed hw hS h32, hwalk]
  exact ⟨m, List.mem_iff_getElem?.mpr ⟨i, hm⟩, h1, heq ▸ h1⟩

/-- C10 (amended), at the model with the variants `(a, 1)` and `(b, 1)` and the seed 7:
both calls return "b". -/
theorem positive_seed_determines_draw_witness :
    (0 : Int) < 7 ∧
    RandomWeightedDraw sampleRand 0 evenModel 7 = .ok "b" ∧
    RandomWeightedDraw sampleRand 0 evenModel 7 = RandomWeightedDraw sampleRand 1 evenModel 7 :=
  ⟨by decide, rfl, (positive_seed_determines_draw sampleRand evenModel 7 (by decide) 0 1).1⟩

/-! ## The promotion loops never run out of fuel -/

theorem length_le_length_mapSet {V : Type} (m : GoMap V) (k : String) (v : V) :
    m.length ≤ (mapSet m k v).length := by
  induction m with
  | nil => simp [mapSet]
  | cons e m ih =>
    obtain ⟨k', v'⟩ := e
    by_cases h : k' = k
    · simp [mapSet, h]
    · simp [mapSet, h, ih]

theorem sourceStep_length_le (ρ : RangeOrder) (st : BuildState) (dsp : DataSourcePlugin) :
    st.sourceAdded.length ≤ (sourceStep ρ st dsp).sourceAdded.length := by
  unfold sourceStep
  split
  · exact le_rfl
  · split
    · exact length_le_length_mapSet _ _ _
    · simp only
      split
      · exact length_le_length_mapSet _ _ _
      · exact le_rfl

theorem consumerStep_length_le (ρ : RangeOrder) (st : BuildState) (dcp : DataConsumingPlugin) :
    st.sourceAdded.length ≤ (consumerStep ρ st dcp).sourceAdded.length := by
  unfold consumerStep
  split
  · exact le_rfl
  · simp only
    split
    · exact length_le_length_mapSet _ _ _
    · exact le_rfl

theorem sourcePass_length_le (ρ : RangeOrder) (l : List DataSourcePlugin) (st : BuildState) :
    st.sourceAdded.length ≤ (l.foldl (sourceStep ρ) st).sourceAdded.length := by
  induction l generalizing st with
  | nil => exact le_rfl
  | cons p l ih => exact le_trans (sourceStep_length_le ρ st p) (ih _)

theorem consumerPass_length_le (ρ : RangeOrder) (l : List DataConsumingPlugin)
    (st : BuildState) :
    st.sourceAdded.length ≤ (l.foldl (consumerStep ρ) st).sourceAdded.length := by
  induction l generalizing st with
  | nil => exact le_rfl
  | cons p l ih => exact le_trans (consumerStep_length_le ρ st p) (ih _)

theorem sourceLoop_total (ρ : RangeOrder) (ps : List DataSourcePlugin) (fuel : Nat)
    (st : BuildState) (hfuel : ps.length - st.sourceAdded.length ≤ fuel) :
    ∃ r, sourceLoop ρ ps fuel st = some r := by
  induction fuel generalizing st with
  | zero =>
    unfold sourceLoop
    split
    · omega
    · exact ⟨_, rfl⟩
  | succ fuel ih =>
    unfold sourceLoop
    split
    · simp only
      split
      · exact ⟨_, rfl⟩
      · next hne =>
        have := sourcePass_length_le ρ ps st
        exact ih _ (by omega)
    · exact ⟨_, rfl⟩

theorem consumerLoop_total (ρ : RangeOrder) (ps : List DataSourcePlugin)
    (cs : List DataConsumingPlugin) (fuel : Nat) (st : BuildState)
    (hfuel : ps.length + cs.length - st.sourceAdded.length ≤ fuel) :
    ∃ r, consumerLoop ρ ps cs fuel st = some r := by
  induction fuel generalizing st with
  | zero =>
    unfold consumerLoop
    split
    · omega
    · exact ⟨_, rfl⟩
  | succ fuel ih =>
    unfold consumerLoop
    split
    · simp only
      split
      · exact ⟨_, rfl⟩
      · next hne =>
        have := consumerPass_length_le ρ cs st
        exact ih _ (by omega)
    · exact ⟨_, rfl⟩

/-- The fuel that `produceDataGraph` supplies is enough: the function always returns, with a
graph or with an error. -/
theorem produceDataGraph_total (ρ : RangeOrder) (ps : List DataSourcePlugin)
    (cs : List DataConsumingPlugin) : ∃ r, produceDataGraph ρ ps cs = some r := by
  unfold produceDataGraph
  split
  · exact ⟨_, rfl⟩
  · obtain ⟨r1, h1⟩ := sourceLoop_total ρ ps ps.length
      { heap := [], baseSources := [], sourceAdded := [] } (by simp)
    rw [h1]
    cases r1 with
    | error e => exact ⟨_, rfl⟩
    | ok st1 =>
      have hlen := (sourceLoop_ok (ps.map (·.Name))
        (fun p hp => List.mem_map_of_mem _ hp) h1 (StateInv.init _)).2
      obtain ⟨r2, h2⟩ := consumerLoop_total ρ ps cs cs.length st1 (by omega)
      simp only [h2]
      cases r2 with
      | error e => exact ⟨_, rfl⟩
      | ok st2 => exact ⟨_, rfl⟩

/-! ## C11: IsCritical -/

/-- C11: `IsCritical` returns true if and only if the `Criticality` field is set and equals
`Critical`; it returns false for the nil field and for every other value. -/
theorem isCritical_iff_declared (model : InferenceModel) :
    (IsCritical model = true ↔ model.Spec.Criticality = some Critical) ∧
    (model.Spec.Criticality = none → IsCritical model = false) ∧
    (∀ c, model.Spec.Criticality = some c → c ≠ Critical → IsCritical model = false) := by
  unfold IsCritical
  refine ⟨?_, ?_, ?_⟩
  · cases h : model.Spec.Criticality with
    | none => simp
    | some c => by_cases hc : c = Critical <;> simp [hc]
  · intro h
    simp [h]
  · intro c h hc
    simp [h, hc]

/-! ## C12: the pool of the datastore -/

theorem storePods_ok_of_some (pods : List PodMetrics) (m : SyncMap) :
    ∃ m', storePods (pods.map some) m = .ok m' := by
  induction pods generalizing m with
  | nil => exact ⟨m, rfl⟩
  | cons p rest ih => simpa [storePods] using ih _

theorem WithPods_inferencePool {pods : List (Option PodMetrics)} {store store' : K8sDatastore}
    (h : WithPods pods store = .ok store') : store'.inferencePool = store.inferencePool := by
  unfold WithPods at h
  split at h
  · exact Except.noConfusion h
  · simp only [Except.ok.injEq] at h
    subst h
    rfl

theorem applyOptions_withPods_inferencePool {podLists : List (List (Option PodMetrics))}
    {store store' : K8sDatastore}
    (h : applyOptions (podLists.map WithPods) store = .ok store') :
    store'.inferencePool = store.inferencePool := by
  induction podLists generalizing store with
  | nil =>
    simp only [List.map_nil, applyOptions, Except.ok.injEq] at h
    subst h
    rfl
  | cons pods rest ih =>
    simp only [List.map_cons, applyOptions] at h
    split at h
    · exact Except.noConfusion h
    · next s1 h1 => rw [ih h, WithPods_inferencePool h1]

theorem inferencePool_foldl_append (store : K8sDatastore) (pools : List (Option InferencePool))
    (pool : Option InferencePool) :
    ((pools ++ [pool]).foldl setInferencePool store).inferencePool = pool := by
  simp [List.foldl_append, setInferencePool]

/-- C12, as stated, fails: on a new store, after `setInferencePool(nil)`, also when it
follows a call with a pool, `getInferencePool` returns the error and `HasSynced` is
false. -/
theorem nil_pool_counterexample :
    ∃ store, NewK8sDataStore [] = .ok store ∧
      getInferencePool (setInferencePool store none) = .error .notInitialized ∧
      HasSynced (setInferencePool store none) = false ∧
      getInferencePool ([some samplePool, none].foldl setInferencePool store) =
        .error .notInitialized :=
  ⟨_, rfl, rfl, rfl, rfl⟩

/-- C12 (amended): in a sequential run on a store created by `NewK8sDataStore` with options
made by `WithPods`, before any call of `setInferencePool` the method `getInferencePool`
returns the error and no pool and `HasSynced` is false; after any sequence of calls whose
last one passes a non-nil pool, `getInferencePool` returns exactly that pool without error
and `HasSynced` is true; after a sequence whose last call passes nil, they answer as before
any call. -/
theorem pool_get_after_set (podLists : List (List (Option PodMetrics))) (store : K8sDatastore)
    (h : NewK8sDataStore (podLists.map WithPods) = .ok store) :
    (HasSynced store = false ∧ getInferencePool store = .error .notInitialized) ∧
    (∀ (pools : List (Option InferencePool)) (pool : InferencePool),
      getInferencePool ((pools ++ [some pool]).foldl setInferencePool store) =
        .ok (some pool) ∧
      HasSynced ((pools ++ [some pool]).foldl setInferencePool store) = true) ∧
    (∀ pools : List (Option InferencePool),
      getInferencePool ((pools ++ [none]).foldl setInferencePool store) =
        .error .notInitialized ∧
      HasSynced ((pools ++ [none]).foldl setInferencePool store) = false) := by
  have h0 : store.inferencePool = none := applyOptions_withPods_inferencePool h
  refine ⟨⟨by simp [HasSynced, h0], by simp [getInferencePool, HasSynced, h0]⟩, ?_, ?_⟩
  · intro pools pool
    have hp := inferencePool_foldl_append store pools (some pool)
    simp only [getInferencePool, HasSynced, hp]
    simp
  · intro pools
    have hp := inferencePool_foldl_append store pools none
    simp only [getInferencePool, HasSynced, hp]
    simp

/-- C12 (amended), on the store made with `WithPods` of one backend: no pool at first, and
after the calls with `samplePool` and then `otherPool` the pool is `otherPool`. -/
theorem pool_get_after_set_witness :
    ∃ store, NewK8sDataStore ([[some samplePod]].map WithPods) = .ok store ∧
      getInferencePool store = .error .notInitialized ∧
      getInferencePool ([some samplePool, some otherPool].foldl setInferencePool store) =
        .ok (some otherPool) ∧
      HasSynced ([some samplePool, some otherPool].foldl setInferencePool store) = true :=
  ⟨_, rfl, rfl,
    ((pool_get_after_set [[some samplePod]] _ rfl).2.1 [some samplePool] otherPool).1,
    ((pool_get_after_set [[some samplePod]] _ rfl).2.1 [some samplePool] otherPool).2⟩

/-! ## C16: WithPods and GetPodIPs -/

theorem syncStore_ne_nil (m : SyncMap) (k v : AnyValue) : syncStore m k v ≠ [] := by
  cases m with
  | nil => simp [syncStore]
  | cons e m =>
    obtain ⟨k', v'⟩ := e
    by_cases h : k' = k <;> simp [syncStore, h]

theorem mem_syncStore {m : SyncMap} {k v : AnyValue} {kv : AnyValue × AnyValue}
    (h : kv ∈ syncStore m k v) : kv = (k, v) ∨ kv ∈ m := by
  induction m with
  | nil => simpa [syncStore] using h
  | cons e m ih =>
    obtain ⟨k', v'⟩ := e
    by_cases hk : k' = k
    · simp only [syncStore, hk, if_true, List.mem_cons] at h
      rcases h with h | h
      · exact Or.inl h
      · exact Or.inr (List.mem_cons_of_mem _ h)
    · simp only [syncStore, hk, if_false, List.mem_cons] at h
      rcases h with h | h
      · exact Or.inr (h ▸ List.mem_cons_self _ _)
      · rcases ih h with h | h
        · exact Or.inl h
        · exact Or.inr (List.mem_cons_of_mem _ h)

theorem storePods_values {pods : List PodMetrics} {m m' : SyncMap}
    (h : storePods (pods.map some) m = .ok m') (hm : ∀ kv ∈ m, kv.2 = .bool true) :
    (∀ kv ∈ m', kv.2 = .bool true) ∧ (pods ≠ [] → m' ≠ []) ∧ (m ≠ [] → m' ≠ []) := by
  induction pods generalizing m with
  | nil =>
    simp only [List.map_nil, storePods, Except.ok.injEq] at h
    subst h
    exact ⟨hm, fun h => absurd rfl h, id⟩
  | cons p rest ih =>
    simp only [List.map_cons, storePods] at h
    have hm' : ∀ kv ∈ syncStore m (.pod p.Pod) (.bool true), kv.2 = .bool true := by
      intro kv hkv
      rcases mem_syncStore hkv with rfl | hkv
      · rfl
      · exact hm kv hkv
    obtain ⟨h1, -, h3⟩ := ih h hm'
    exact ⟨h1, fun _ => h3 (syncStore_ne_nil _ _ _), fun _ => h3 (syncStore_ne_nil _ _ _)⟩

theorem collectPodIPs_of_bool {l : SyncMap} (hl : l ≠ []) (hv : ∀ kv ∈ l, kv.2 = .bool true)
    (ips : List String) : collectPodIPs l ips = .error .typeAssertion := by
  cases l with
  | nil => exact absurd rfl hl
  | cons e rest =>
    obtain ⟨k, v⟩ := e
    have : v = .bool true := hv (k, v) (List.mem_cons_self _ _)
    subst this
    rfl

/-- C16 on the code: for every non-empty list of non-nil pods, the store built by
`NewK8sDataStore(WithPods(pods))` holds the value `true`, a bool, under every key of the pods
map, and `GetPodIPs` fails its type assertion to `*corev1.Pod` at the first entry it visits,
whatever the visiting order. -/
theorem withPods_getPodIPs_panics (σ : SyncOrder) (hσ : σ.Fair) (pods : List PodMetrics)
    (hne : pods ≠ []) :
    ∃ store, NewK8sDataStore [WithPods (pods.map some)] = .ok store ∧
      (∀ kv ∈ store.pods, kv.2 = .bool true) ∧
      GetPodIPs σ store = .error .typeAssertion := by
  obtain ⟨m, hm⟩ := storePods_ok_of_some pods []
  obtain ⟨hv, hnil, -⟩ := storePods_values hm (by simp)
  refine ⟨{ inferencePool := none, InferenceModels := [], pods := m }, ?_, hv, ?_⟩
  · simp [NewK8sDataStore, applyOptions, WithPods, hm]
  · unfold GetPodIPs
    apply collectPodIPs_of_bool
    · intro h0
      have := (hσ m).length_eq
      simp only at h0
      rw [h0] at this
      exact hnil hne (List.length_eq_zero.mp this.symm)
    · intro kv hkv
      exact hv kv ((hσ m).mem_iff.mp hkv)

/-- C16 on the code, at the list of the one backend `samplePod`. -/
theorem withPods_getPodIPs_panics_witness :
    [samplePod] ≠ [] ∧
    ∃ store, NewK8sDataStore [WithPods ([samplePod].map some)] = .ok store ∧
      (∀ kv ∈ store.pods, kv.2 = .bool true) ∧
      GetPodIPs .stored store = .error .typeAssertion :=
  ⟨by decide, withPods_getPodIPs_panics .stored (fun m => List.Perm.refl m) [samplePod]
    (by decide)⟩

/-! ## The heap under addDependent -/

theorem mapSet_mapSet_same {V : Type} (m : GoMap V) (k : String) (v : V) :
    mapSet (mapSet m k v) k v = mapSet m k v := by
  induction m with
  | nil => simp [mapSet]
  | cons e m ih =>
    obtain ⟨k', v'⟩ := e
    by_cases h : k' = k
    · simp [mapSet, h]
    · simp [mapSet, h, ih]

theorem mem_mapSet {V : Type} {m : GoMap V} {k : String} {v : V} {e : String × V}
    (h : e ∈ mapSet m k v) : e = (k, v) ∨ e ∈ m := by
  induction m with
  | nil => simpa [mapSet] using h
  | cons x m ih =>
    obtain ⟨k', v'⟩ := x
    by_cases hk : k' = k
    · simp only [mapSet, hk, if_true, List.mem_cons] at h
      rcases h with h | h
      · exact Or.inl h
      · exact Or.inr (List.mem_cons_of_mem _ h)
    · simp only [mapSet, hk, if_false, List.mem_cons] at h
      rcases h with h | h
      · exact Or.inr (h ▸ List.mem_cons_self _ _)
      · rcases ih h with h | h
        · exact Or.inl h
        · exact Or.inr (List.mem_cons_of_mem _ h)

theorem getElem?_addDependent (name : String) (ptr : NodePtr) (heap : List DependencyNode)
    (source i : NodePtr) :
    (addDependent name ptr heap source)[i]? = (heap[i]?).map (touch name ptr [source] i) := by
  induction heap generalizing source i with
  | nil => simp [addDependent]
  | cons n heap ih =>
    cases source with
    | zero =>
      cases i with
      | zero => simp [addDependent, touch]
      | succ i =>
        simp only [addDependent, List.getElem?_cons_succ]
        cases heap[i]? <;> simp [touch]
    | succ s =>
      cases i with
      | zero => simp [addDependent, touch]
      | succ i =>
        simp only [addDependent, List.getElem?_cons_succ, ih]
        cases heap[i]? <;> simp [touch]

theorem touch_touch (name : String) (ptr : NodePtr) (x : NodePtr) (srcs : List NodePtr)
    (i : NodePtr) (n : DependencyNode) :
    touch name ptr srcs i (touch name ptr [x] i n) = touch name ptr (x :: srcs) i n := by
  unfold touch
  by_cases h1 : i = x <;> by_cases h2 : i ∈ srcs <;> simp [h1, h2, mapSet_mapSet_same]

theorem getElem?_foldl_addDependent (name : String) (ptr : NodePtr) (l : GoMap NodePtr)
    (heap : List DependencyNode) (i : NodePtr) :
    (l.foldl (fun h src => addDependent name ptr h src.2) heap)[i]? =
      (heap[i]?).map (touch name ptr (l.map Prod.snd) i) := by
  induction l generalizing heap with
  | nil =>
    simp only [List.foldl_nil, List.map_nil]
    cases heap[i]? <;> simp [touch]
  | cons x l ih =>
    simp only [List.foldl_cons, List.map_cons, ih, getElem?_addDependent, Option.map_map]
    congr 1
    funext n
    exact touch_touch name ptr x.2 _ i n

/-! ## The link invariant -/

theorem touch_Consumes (name : String) (ptr : NodePtr) (srcs : List NodePtr) (i : Nat)
    (n : DependencyNode) : (touch name ptr srcs i n).Consumes = n.Consumes := by
  unfold touch
  split <;> rfl

theorem touch_Produces (name : String) (ptr : NodePtr) (srcs : List NodePtr) (i : Nat)
    (n : DependencyNode) : (touch name ptr srcs i n).Produces = n.Produces := by
  unfold touch
  split <;> rfl

theorem mapGet_touch_Dependents (name : String) (ptr : NodePtr) (srcs : List NodePtr)
    (i : Nat) (n : DependencyNode) (nm : String) :
    mapGet (touch name ptr srcs i n).Dependents nm =
      if i ∈ srcs ∧ name = nm then some ptr else mapGet n.Dependents nm := by
  unfold touch
  by_cases h1 : i ∈ srcs
  · by_cases h2 : name = nm
    · subst h2
      simp [h1, mapGet_mapSet_self]
    · simp [h1, h2, mapGet_mapSet_ne _ _ h2]
  · simp [h1]

theorem mapGet_mapSet (m : GoMap NodePtr) (k k' : String) (v : NodePtr) :
    mapGet (mapSet m k v) k' = if k = k' then some v else mapGet m k' := by
  by_cases h : k = k'
  · subst h
    simp [mapGet_mapSet_self]
  · simp [h, mapGet_mapSet_ne _ _ h]

theorem getElem?_record {heap heap' : List DependencyNode} {name : String}
    {srcs : List NodePtr} (hlen : heap'.length = heap.length)
    (hget : ∀ i, heap'[i]? = (heap[i]?).map (touch name heap.length srcs i))
    (node : DependencyNode) (i : Nat) :
    (heap' ++ [node])[i]? =
      if i = heap.length then some node
      else (heap[i]?).map (touch name heap.length srcs i) := by
  by_cases h : i = heap.length
  · subst h
    rw [if_pos rfl, ← hlen, List.getElem?_append_right (le_refl _)]
    simp
  · rw [if_neg h, ← hget]
    by_cases hlt : i < heap'.length
    · exact List.getElem?_append_left hlt
    · have h1 : (heap' ++ [node]).length ≤ i := by
        simp only [List.length_append, List.length_singleton]
        omega
      have h2 : heap'.length ≤ i := by omega
      rw [List.getElem?_eq_none h1, List.getElem?_eq_none h2]

/-- Recording a new node named `name`, whose upstream nodes are exactly `srcs`, after each of
them was given the new node as a dependent, keeps the link invariant. -/
theorem LinkInv.link_record {st : BuildState} (h : LinkInv st) {name : String}
    (hfresh : mapGet st.sourceAdded name = none) (srcs : List NodePtr)
    {heap' : List DependencyNode} (hlen : heap'.length = st.heap.length)
    (hget : ∀ i, heap'[i]? = (st.heap[i]?).map (touch name st.heap.length srcs i))
    {node : DependencyNode} (hdep : node.Dependents = [])
    (hc1 : ∀ k s, mapGet (entries node.Consumes) k = some s → s ∈ srcs ∧ s < st.heap.length)
    (hc2 : ∀ s ∈ srcs, ∃ k, mapGet (entries node.Consumes) k = some s)
    (bs : List NodePtr) :
    LinkInv
      { heap := heap' ++ [node]
        baseSources := bs
        sourceAdded := mapSet st.sourceAdded name st.heap.length } := by
  have hrec := getElem?_record hlen hget node
  have hold : ∀ (nm : String) (p : Nat), mapGet st.sourceAdded nm = some p →
      p < st.heap.length ∧ nm ≠ name := by
    intro nm p hp
    refine ⟨h.valid _ (mem_of_mapGet hp), ?_⟩
    rintro rfl
    rw [hfresh] at hp
    exact Option.noConfusion hp
  have hnew : ∀ (nm : String) (p : Nat),
      mapGet (mapSet st.sourceAdded name st.heap.length) nm = some p →
      (nm = name ∧ p = st.heap.length) ∨
      (nm ≠ name ∧ p < st.heap.length ∧ mapGet st.sourceAdded nm = some p) := by
    intro nm p hp
    rw [mapGet_mapSet] at hp
    by_cases hk : name = nm
    · rw [if_pos hk] at hp
      exact Or.inl ⟨hk.symm, (Option.some.inj hp).symm⟩
    · rw [if_neg hk] at hp
      exact Or.inr ⟨fun e => hk e.symm, (hold nm p hp).1, hp⟩
  have hup : ∀ n s : Nat, n < st.heap.length →
      (Upstream (heap' ++ [node]) n s ↔ Upstream st.heap n s) := by
    intro n s hn
    have hne : n ≠ st.heap.length := by omega
    constructor
    · rintro ⟨nd, k, hnd, hk⟩
      rw [hrec, if_neg hne] at hnd
      obtain ⟨nd0, hnd0, rfl⟩ := Option.map_eq_some'.mp hnd
      rw [touch_Consumes] at hk
      exact ⟨nd0, k, hnd0, hk⟩
    · rintro ⟨nd0, k, hnd0, hk⟩
      refine ⟨touch name st.heap.length srcs n nd0, k, ?_, ?_⟩
      · rw [hrec, if_neg hne, hnd0]
        rfl
      · rw [touch_Consumes]
        exact hk
  constructor
  · intro e he
    simp only [List.length_append, List.length_singleton, hlen]
    rcases mem_mapSet he with rfl | he
    · exact Nat.lt_succ_self _
    · exact Nat.lt_succ_of_lt (h.valid e he)
  · intro (p : Nat) hp
    simp only [List.length_append, List.length_singleton, hlen] at hp
    by_cases hpN : p = st.heap.length
    · exact ⟨name, by rw [mapGet_mapSet, if_pos rfl, hpN]⟩
    · obtain ⟨nm, hnm⟩ := h.named p (by omega)
      refine ⟨nm, ?_⟩
      rw [mapGet_mapSet, if_neg (fun e => (hold nm p hnm).2 e.symm)]
      exact hnm
  · intro nm nm' (p : Nat) hp hp'
    rcases hnew nm p hp with ⟨rfl, rfl⟩ | ⟨hne, hlt, hp0⟩
    · rcases hnew nm' _ hp' with ⟨rfl, -⟩ | ⟨-, hlt', -⟩
      · rfl
      · omega
    · rcases hnew nm' p hp' with ⟨-, rfl⟩ | ⟨-, -, hp0'⟩
      · omega
      · exact h.inj nm nm' p hp0 hp0'
  · intro nm (n : Nat) (s : Nat) hn hu
    rcases hnew nm n hn with ⟨rfl, rfl⟩ | ⟨hne, hlt, hn0⟩
    · obtain ⟨nd, k, hnd, hk⟩ := hu
      rw [hrec, if_pos rfl] at hnd
      cases hnd
      obtain ⟨hs, hsl⟩ := hc1 k s hk
      obtain ⟨sn0, hsn0⟩ : ∃ sn0, st.heap[s]? = some sn0 :=
        ⟨_, List.getElem?_eq_getElem hsl⟩
      refine ⟨touch nm st.heap.length srcs s sn0, ?_, ?_⟩
      · rw [hrec, if_neg (Nat.ne_of_lt hsl), hsn0]
        rfl
      · rw [mapGet_touch_Dependents, if_pos ⟨hs, rfl⟩]
    · obtain ⟨sn0, hsn0, hd⟩ := h.forward nm n s hn0 ((hup n s hlt).mp hu)
      have hsl : s < st.heap.length := (List.getElem?_eq_some.mp hsn0).1
      refine ⟨touch name st.heap.length srcs s sn0, ?_, ?_⟩
      · rw [hrec, if_neg (Nat.ne_of_lt hsl), hsn0]
        rfl
      · rw [mapGet_touch_Dependents, if_neg (fun e => hne e.2.symm)]
        exact hd
  · rintro (s : Nat) nm (n : Nat) ⟨sn, hsn, hd⟩
    rw [hrec] at hsn
    by_cases hsN : s = st.heap.length
    · rw [if_pos hsN] at hsn
      cases hsn
      rw [hdep] at hd
      simp [mapGet] at hd
    · rw [if_neg hsN] at hsn
      obtain ⟨sn0, hsn0, rfl⟩ := Option.map_eq_some'.mp hsn
      have hsl : s < st.heap.length := (List.getElem?_eq_some.mp hsn0).1
      rw [mapGet_touch_Dependents] at hd
      by_cases hcase : s ∈ srcs ∧ name = nm
      · rw [if_pos hcase] at hd
        cases hd
        obtain ⟨hs, rfl⟩ := hcase
        refine ⟨by rw [mapGet_mapSet, if_pos rfl], ?_⟩
        obtain ⟨k, hk⟩ := hc2 s hs
        exact ⟨node, k, by rw [hrec, if_pos rfl], hk⟩
      · rw [if_neg hcase] at hd
        obtain ⟨hn0, hu0⟩ := h.backward s nm n ⟨sn0, hsn0, hd⟩
        obtain ⟨hlt, hne⟩ := hold nm n hn0
        refine ⟨?_, (hup n s hlt).mpr hu0⟩
        rw [mapGet_mapSet, if_neg (fun e => hne e.symm)]
        exact hn0

theorem scanSources_spec (heap : List DependencyNode) (dep : String) (l : GoMap NodePtr)
    (acc : Bool × GoMap NodePtr) (hwf : MapWF acc.2) :
    MapWF (scanSources heap dep l acc).2 ∧
    ∀ e ∈ (scanSources heap dep l acc).2, e ∈ acc.2 ∨ ∃ x ∈ l, x.2 = e.2 := by
  induction l generalizing acc with
  | nil =>
    obtain ⟨b, c⟩ := acc
    exact ⟨hwf, fun e he => Or.inl he⟩
  | cons x l ih =>
    obtain ⟨b, c⟩ := acc
    obtain ⟨nm, src⟩ := x
    unfold scanSources
    split
    · obtain ⟨h1, h2⟩ := ih (b, mapSet c dep src) (MapWF.mapSet hwf dep src)
      refine ⟨h1, fun e he => ?_⟩
      rcases h2 e he with h | ⟨y, hy, hye⟩
      · rcases mem_mapSet h with rfl | h
        · exact Or.inr ⟨(nm, src), List.mem_cons_self _ _, rfl⟩
        · exact Or.inl h
      · exact Or.inr ⟨y, List.mem_cons_of_mem _ hy, hye⟩
    · exact ⟨hwf, fun e he => Or.inl he⟩

theorem foldl_scanSources_spec (heap : List DependencyNode) (l : GoMap NodePtr)
    (deps : GoMap GoType) (acc : Bool × GoMap NodePtr) (hwf : MapWF acc.2) :
    MapWF (deps.foldl (fun a dep => scanSources heap dep.1 l a) acc).2 ∧
    ∀ e ∈ (deps.foldl (fun a dep => scanSources heap dep.1 l a) acc).2,
      e ∈ acc.2 ∨ ∃ x ∈ l, x.2 = e.2 := by
  induction deps generalizing acc with
  | nil => exact ⟨hwf, fun e he => Or.inl he⟩
  | cons d deps ih =>
    simp only [List.foldl_cons]
    obtain ⟨h1, h2⟩ := scanSources_spec heap d.1 l acc hwf
    obtain ⟨h3, h4⟩ := ih _ h1
    refine ⟨h3, fun e he => ?_⟩
    rcases h4 e he with h | h
    · exact h2 e h
    · exact Or.inr h

/-- The `Consumes` map that the dependency scan builds has distinct keys, and its values are
pointers recorded in `sourceAdded`. -/
theorem resolveDeps_spec {ρ : RangeOrder} (hρ : ρ.Fair) (st : BuildState)
    (consumes : GoMap GoType) :
    MapWF (resolveDeps ρ st consumes).2 ∧
    ∀ e ∈ (resolveDeps ρ st consumes).2, ∃ x ∈ st.sourceAdded, x.2 = e.2 := by
  obtain ⟨h1, h2⟩ := foldl_scanSources_spec st.heap (ρ.order st.sourceAdded)
    (ρ.order consumes) (true, []) (by simp [MapWF, mapKeys])
  refine ⟨h1, fun e he => ?_⟩
  rcases h2 e he with h | ⟨x, hx, hxe⟩
  · simp at h
  · exact ⟨x, (hρ.mem_iff _ _).mp hx, hxe⟩

theorem mapGet_eq_none_of_mapHas {V : Type} {m : GoMap V} {k : String}
    (h : mapHas m k = false) : mapGet m k = none := by
  unfold mapHas at h
  cases hg : mapGet m k with
  | none => rfl
  | some v => simp [hg] at h

theorem LinkInv.link_init : LinkInv { heap := [], baseSources := [], sourceAdded := [] } := by
  constructor
  · intro e he
    simp at he
  · intro p hp
    simp at hp
  · intro nm nm' p hp
    simp [mapGet] at hp
  · intro nm n s hn
    simp [mapGet] at hn
  · rintro s nm n ⟨sn, hsn, -⟩
    simp at hsn

theorem LinkInv.link_promoteRoot {st : BuildState} (h : LinkInv st) {name : String}
    (hnew : mapHas st.sourceAdded name = false) (produces : Option (GoMap GoType)) :
    LinkInv (promoteRoot st name produces) := by
  refine h.link_record (mapGet_eq_none_of_mapHas hnew) [] rfl ?_ rfl ?_ ?_ _
  · intro i
    cases st.heap[i]? <;> simp [touch]
  · intro k s hk
    simp [entries, mapGet] at hk
  · intro s hs
    simp at hs

theorem LinkInv.link_promoteDependent {ρ : RangeOrder} (hρ : ρ.Fair) {st : BuildState}
    (h : LinkInv st) {name : String} (hnew : mapHas st.sourceAdded name = false)
    {consumes : GoMap NodePtr} (hwf : MapWF consumes)
    (hval : ∀ e ∈ consumes, ∃ x ∈ st.sourceAdded, x.2 = e.2)
    (produces : Option (GoMap GoType)) :
    LinkInv (promoteDependent ρ st name consumes produces) := by
  refine h.link_record (mapGet_eq_none_of_mapHas hnew)
    ((ρ.order consumes).map Prod.snd) (length_foldl_addDependent _ _ _ _)
    (fun i => getElem?_foldl_addDependent _ _ _ _ i) rfl ?_ ?_ _
  · intro k s hk
    have hmem : (k, s) ∈ consumes := mem_of_mapGet hk
    refine ⟨List.mem_map.mpr ⟨(k, s), (hρ.mem_iff _ _).mpr hmem, rfl⟩, ?_⟩
    obtain ⟨x, hx, hxe⟩ := hval _ hmem
    have := h.valid x hx
    rw [hxe] at this
    exact this
  · intro s hs
    obtain ⟨e, he, rfl⟩ := List.mem_map.mp hs
    exact ⟨e.1, mapGet_of_mem hwf ((hρ.mem_iff _ _).mp he)⟩

theorem LinkInv.link_sourceStep {ρ : RangeOrder} (hρ : ρ.Fair) {st : BuildState}
    (h : LinkInv st)
    (dsp : DataSourcePlugin) : LinkInv (sourceStep ρ st dsp) := by
  unfold Gateway.sourceStep
  split
  · exact h
  · next hnew =>
    have hnew' : mapHas st.sourceAdded dsp.Name = false := by simpa using hnew
    split
    · exact h.link_promoteRoot hnew' _
    · simp only
      split
      · exact h.link_promoteDependent hρ hnew' (resolveDeps_spec hρ st _).1
          (resolveDeps_spec hρ st _).2 _
      · exact h

theorem LinkInv.link_consumerStep {ρ : RangeOrder} (hρ : ρ.Fair) {st : BuildState}
    (h : LinkInv st) (dcp : DataConsumingPlugin) : LinkInv (consumerStep ρ st dcp) := by
  unfold Gateway.consumerStep
  split
  · exact h
  · next hnew =>
    have hnew' : mapHas st.sourceAdded dcp.Name = false := by simpa using hnew
    simp only
    split
    · exact h.link_promoteDependent hρ hnew' (resolveDeps_spec hρ st _).1
        (resolveDeps_spec hρ st _).2 _
    · exact h

/-- A property that every step on a producer of the list keeps is kept by a pass. -/
theorem foldl_sourceStep_keeps {ρ : RangeOrder} {ps : List DataSourcePlugin}
    (I : BuildState → Prop)
    (hstep : ∀ st dsp, dsp ∈ ps → I st → I (sourceStep ρ st dsp))
    (l : List DataSourcePlugin) (hl : ∀ p ∈ l, p ∈ ps) {st : BuildState} (h : I st) :
    I (l.foldl (sourceStep ρ) st) := by
  induction l generalizing st with
  | nil => exact h
  | cons p l ih =>
    exact ih (fun q hq => hl q (List.mem_cons_of_mem _ hq))
      (hstep st p (hl p (List.mem_cons_self _ _)) h)

/-- A property that every step on a producer of the list keeps holds when the first loop
returns. -/
theorem sourceLoop_keeps {ρ : RangeOrder} {ps : List DataSourcePlugin}
    (I : BuildState → Prop)
    (hstep : ∀ st dsp, dsp ∈ ps → I st → I (sourceStep ρ st dsp))
    {fuel : Nat} {st st' : BuildState} (h : sourceLoop ρ ps fuel st = some (.ok st'))
    (hst : I st) : I st' := by
  induction fuel generalizing st with
  | zero =>
    unfold sourceLoop at h
    split at h
    · exact Option.noConfusion h
    · simp only [Option.some.injEq, Except.ok.injEq] at h
      exact h ▸ hst
  | succ fuel ih =>
    unfold sourceLoop at h
    split at h
    · simp only at h
      split at h
      · simp at h
      · exact ih h (foldl_sourceStep_keeps I hstep ps (fun p hp => hp) hst)
    · simp only [Option.some.injEq, Except.ok.injEq] at h
      exact h ▸ hst

theorem foldl_consumerStep_keeps {ρ : RangeOrder} (I : BuildState → Prop)
    (hstep : ∀ st dcp, I st → I (consumerStep ρ st dcp))
    (l : List DataConsumingPlugin) {st : BuildState} (h : I st) :
    I (l.foldl (consumerStep ρ) st) := by
  induction l generalizing st with
  | nil => exact h
  | cons p l ih => exact ih (hstep st p h)

/-- A property that every step on a consumer keeps holds when the second loop returns. -/
theorem consumerLoop_keeps {ρ : RangeOrder} {ps : List DataSourcePlugin}
    {cs : List DataConsumingPlugin} (I : BuildState → Prop)
    (hstep : ∀ st dcp, I st → I (consumerStep ρ st dcp))
    {fuel : Nat} {st st' : BuildState} (h : consumerLoop ρ ps cs fuel st = some (.ok st'))
    (hst : I st) : I st' := by
  induction fuel generalizing st with
  | zero =>
    unfold consumerLoop at h
    split at h
    · exact Option.noConfusion h
    · simp only [Option.some.injEq, Except.ok.injEq] at h
      exact h ▸ hst
  | succ fuel ih =>
    unfold consumerLoop at h
    split at h
    · simp only at h
      split at h
      · simp at h
      · exact ih h (foldl_consumerStep_keeps I hstep cs hst)
    · simp only [Option.some.injEq, Except.ok.injEq] at h
      exact h ▸ hst

/-! ## C13: bidirectional edges -/

/-- C13: in every graph that `produceDataGraph` returns, the nodes have pairwise distinct
plugin names (the keys of `sourceAdded` at the return), and for a node `n` of name `name`
and a node `s`: `s` is the upstream that `n` records for some consumed key if and only if
`s` records `n` as a downstream under `name`; every `Dependents` entry is filed under the
name of the node it points to. -/
theorem edges_bidirectional (ρ : RangeOrder) (hρ : ρ.Fair) (ps : List DataSourcePlugin)
    (cs : List DataConsumingPlugin) (g : DataGraph)
    (h : produceDataGraph ρ ps cs = some (.ok g)) :
    ∃ names : GoMap NodePtr,
      (∀ p, p < g.heap.length → ∃ name, mapGet names name = some p) ∧
      (∀ name p, mapGet names name = some p →
        p < g.heap.length ∧ name ∈ ps.map (·.Name) ++ cs.map (·.Name)) ∧
      (∀ name name' p, mapGet names name = some p → mapGet names name' = some p →
        name = name') ∧
      (∀ name n s, mapGet names name = some n →
        (Upstream g.heap n s ↔ Downstream g.heap s name n)) ∧
      (∀ s name n, Downstream g.heap s name n → mapGet names name = some n) := by
  obtain ⟨st1, st2, -, h1, h2, rfl⟩ := produceDataGraph_ok h
  have hps : ∀ p ∈ ps, p.Name ∈ ps.map (·.Name) ++ cs.map (·.Name) := fun p hp =>
    List.mem_append_left _ (List.mem_map_of_mem _ hp)
  have hcs : ∀ p ∈ cs, p.Name ∈ ps.map (·.Name) ++ cs.map (·.Name) := fun p hp =>
    List.mem_append_right _ (List.mem_map_of_mem _ hp)
  have i1 := sourceLoop_ok _ hps h1 (StateInv.init _)
  have i2 := consumerLoop_ok _ hcs h2 i1.1
  have l1 : LinkInv st1 :=
    sourceLoop_keeps LinkInv (fun st dsp _ hst => hst.link_sourceStep hρ dsp) h1
      LinkInv.link_init
  have l2 : LinkInv st2 :=
    consumerLoop_keeps LinkInv (fun st dcp hst => hst.link_consumerStep hρ dcp) h2 l1
  refine ⟨st2.sourceAdded, l2.named, fun name p hp => ?_, l2.inj, fun name n s hn => ?_,
    fun s name n hd => (l2.backward s name n hd).1⟩
  · exact ⟨l2.valid _ (mem_of_mapGet hp),
      i2.1.2.2.2 name (List.mem_map_of_mem Prod.fst (mem_of_mapGet hp))⟩
  · exact ⟨l2.forward name n s hn, fun hd => (l2.backward s name n hd).2⟩

/-- C13 at the producer `cacheSource` and one scoring plugin: the scoring plugin's node 1
records node 0 as upstream, and node 0 records node 1 as downstream under
"scoring-plugin". -/
theorem edges_bidirectional_witness :
    produceDataGraph .stored [cacheSource] [{}] = some (.ok cacheGraph) ∧
    Upstream cacheGraph.heap 1 0 ∧ Downstream cacheGraph.heap 0 "scoring-plugin" 1 ∧
    ∃ names : GoMap NodePtr,
      (∀ p, p < cacheGraph.heap.length → ∃ name, mapGet names name = some p) ∧
      (∀ name p, mapGet names name = some p →
        p < cacheGraph.heap.length ∧
          name ∈ [cacheSource].map (·.Name) ++ [({} : DataConsumingPlugin)].map (·.Name)) ∧
      (∀ name name' p, mapGet names name = some p → mapGet names name' = some p →
        name = name') ∧
      (∀ name n s, mapGet names name = some n →
        (Upstream cacheGraph.heap n s ↔ Downstream cacheGraph.heap s name n)) ∧
      (∀ s name n, Downstream cacheGraph.heap s name n → mapGet names name = some n) :=
  ⟨rfl, ⟨_, "kv-cache-utilization", rfl, rfl⟩, ⟨_, rfl, rfl⟩,
    edges_bidirectional .stored RangeOrder.fair_stored [cacheSource] [{}] cacheGraph rfl⟩

/-! ## C14: termination -/

/-- C14: `produceDataGraph` returns on every input, with the fuel of one unit per plugin; a
pass of either promotion loop never lowers the number of promoted plugins, and when it does
not raise it the loop returns its error; that number stays bounded by the number of plugins;
and a returned error carries no node list. -/
theorem promotion_terminates (ρ : RangeOrder) (ps : List DataSourcePlugin)
    (cs : List DataConsumingPlugin) :
    (∃ r, produceDataGraph ρ ps cs = some r) ∧
    (∀ (st : BuildState) (fuel : Nat), st.sourceAdded.length < ps.length →
      st.sourceAdded.length < (ps.foldl (sourceStep ρ) st).sourceAdded.length ∨
      sourceLoop ρ ps (fuel + 1) st = some (.error .circularSources)) ∧
    (∀ (st : BuildState) (fuel : Nat), st.sourceAdded.length < ps.length + cs.length →
      st.sourceAdded.length < (cs.foldl (consumerStep ρ) st).sourceAdded.length ∨
      consumerLoop ρ ps cs (fuel + 1) st = some (.error .circularConsumers)) ∧
    (∀ st : BuildState, StateInv (ps.map (·.Name)) st →
      StateInv (ps.map (·.Name)) (ps.foldl (sourceStep ρ) st) ∧
      (ps.foldl (sourceStep ρ) st).sourceAdded.length ≤ ps.length) ∧
    (∀ st : BuildState, StateInv (ps.map (·.Name) ++ cs.map (·.Name)) st →
      StateInv (ps.map (·.Name) ++ cs.map (·.Name)) (cs.foldl (consumerStep ρ) st) ∧
      (cs.foldl (consumerStep ρ) st).sourceAdded.length ≤ ps.length + cs.length) ∧
    (∀ e, produceDataGraph ρ ps cs = some (.error e) →
      ∀ g, produceDataGraph ρ ps cs ≠ some (.ok g)) := by
  refine ⟨produceDataGraph_total ρ ps cs, ?_, ?_, ?_, ?_, ?_⟩
  · intro st fuel hlt
    have hle := sourcePass_length_le ρ ps st
    by_cases heq : (ps.foldl (sourceStep ρ) st).sourceAdded.length = st.sourceAdded.length
    · right
      simp [sourceLoop, hlt, heq]
    · left
      omega
  · intro st fuel hlt
    have hle := consumerPass_length_le ρ cs st
    by_cases heq : (cs.foldl (consumerStep ρ) st).sourceAdded.length = st.sourceAdded.length
    · right
      simp [consumerLoop, hlt, heq]
    · left
      omega
  · intro st hst
    have h := hst.sourcePass ρ ps (fun p hp => List.mem_map_of_mem _ hp)
    refine ⟨h, ?_⟩
    simpa using h.length_le
  · intro st hst
    have h := hst.consumerPass ρ cs
      (fun p hp => List.mem_append_right _ (List.mem_map_of_mem _ hp))
    refine ⟨h, ?_⟩
    simpa using h.length_le
  · intro e he g hg
    rw [he] at hg
    simp at hg

/-! ## C15: consumers need a single producer -/

theorem scanSources_true {heap : List DependencyNode} {dep : String} {l : GoMap NodePtr}
    {acc : Bool × GoMap NodePtr} (h : (scanSources heap dep l acc).1 = true) :
    acc.1 = true ∧ ∀ x ∈ l, producesKey heap x.2 dep = true := by
  induction l generalizing acc with
  | nil =>
    obtain ⟨b, c⟩ := acc
    exact ⟨h, fun x hx => by simp at hx⟩
  | cons x l ih =>
    obtain ⟨b, c⟩ := acc
    obtain ⟨nm, src⟩ := x
    unfold scanSources at h
    split at h
    · next hp =>
      obtain ⟨h1, h2⟩ := ih h
      refine ⟨h1, fun y hy => ?_⟩
      rcases List.mem_cons.mp hy with rfl | hy
      · exact hp
      · exact h2 y hy
    · simp at h

theorem foldl_scanSources_true {heap : List DependencyNode} {l : GoMap NodePtr}
    {deps : GoMap GoType} {acc : Bool × GoMap NodePtr}
    (h : (deps.foldl (fun a dep => scanSources heap dep.1 l a) acc).1 = true) :
    acc.1 = true ∧ ∀ d ∈ deps, ∀ x ∈ l, producesKey heap x.2 d.1 = true := by
  induction deps generalizing acc with
  | nil => exact ⟨h, fun d hd => by simp at hd⟩
  | cons d deps ih =>
    simp only [List.foldl_cons] at h
    obtain ⟨h1, h2⟩ := ih h
    obtain ⟨h3, h4⟩ := scanSources_true h1
    refine ⟨h3, fun d' hd' => ?_⟩
    rcases List.mem_cons.mp hd' with rfl | hd'
    · exact h4
    · exact h2 d' hd'

/-- The dependency scan succeeds only when every recorded node produces every consumed
key. -/
theorem resolveDeps_true {ρ : RangeOrder} (hρ : ρ.Fair) {st : BuildState}
    {consumes : GoMap GoType} (h : (resolveDeps ρ st consumes).1 = true) :
    ∀ d ∈ consumes, ∀ x ∈ st.sourceAdded, producesKey st.heap x.2 d.1 = true := by
  intro d hd x hx
  exact (foldl_scanSources_true h).2 d ((hρ.mem_iff _ _).mpr hd) x ((hρ.mem_iff _ _).mpr hx)

theorem OriginInv.origin_init (ps : List DataSourcePlugin) :
    OriginInv ps { heap := [], baseSources := [], sourceAdded := [] } := by
  intro name p hp
  simp [mapGet] at hp

theorem OriginInv.origin_record {ps : List DataSourcePlugin} {st : BuildState}
    (h : OriginInv ps st)
    {dsp : DataSourcePlugin} (hdsp : dsp ∈ ps) (srcs : List NodePtr)
    {heap' : List DependencyNode} (hlen : heap'.length = st.heap.length)
    (hget : ∀ i, heap'[i]? = (st.heap[i]?).map (touch dsp.Name st.heap.length srcs i))
    {node : DependencyNode} (hprod : node.Produces = dsp.Produces) (bs : List NodePtr) :
    OriginInv ps
      { heap := heap' ++ [node]
        baseSources := bs
        sourceAdded := mapSet st.sourceAdded dsp.Name st.heap.length } := by
  have hrec := getElem?_record hlen hget node
  intro name (p : Nat) hp
  simp only at hp ⊢
  rw [mapGet_mapSet] at hp
  by_cases hk : dsp.Name = name
  · rw [if_pos hk] at hp
    cases hp
    exact ⟨node, dsp, by rw [hrec, if_pos rfl], hdsp, hk, hprod⟩
  · rw [if_neg hk] at hp
    obtain ⟨node0, dsp0, hn0, hd0, hname0, hp0⟩ := h name p hp
    have hlt : p < st.heap.length := (List.getElem?_eq_some.mp hn0).1
    refine ⟨touch dsp.Name st.heap.length srcs p node0, dsp0, ?_, hd0, hname0, ?_⟩
    · rw [hrec, if_neg (Nat.ne_of_lt hlt), hn0]
      rfl
    · rw [touch_Produces]
      exact hp0

theorem OriginInv.origin_sourceStep {ρ : RangeOrder} {ps : List DataSourcePlugin}
    {st : BuildState}
    (h : OriginInv ps st) {dsp : DataSourcePlugin} (hdsp : dsp ∈ ps) :
    OriginInv ps (sourceStep ρ st dsp) := by
  unfold Gateway.sourceStep
  split
  · exact h
  · split
    · refine h.origin_record hdsp [] rfl ?_ rfl _
      intro i
      cases st.heap[i]? <;> simp [touch]
    · simp only
      split
      · exact h.origin_record hdsp _ (length_foldl_addDependent _ _ _ _)
          (fun i => getElem?_foldl_addDependent _ _ _ _ i) rfl _
      · exact h

/-- A graph is only returned for at most one consumer: the consumers share one name. -/
theorem consumers_le_one {ρ : RangeOrder} {ps : List DataSourcePlugin}
    {cs : List DataConsumingPlugin} {g : DataGraph}
    (h : produceDataGraph ρ ps cs = some (.ok g)) : cs.length ≤ 1 := by
  obtain ⟨st1, st2, -, h1, h2, -⟩ := produceDataGraph_ok h
  have hps : ∀ p ∈ ps, p.Name ∈ ps.map (·.Name) ++ ["scoring-plugin"] := fun p hp =>
    List.mem_append_left _ (List.mem_map_of_mem _ hp)
  have hcs : ∀ p ∈ cs, p.Name ∈ ps.map (·.Name) ++ ["scoring-plugin"] := fun p _ =>
    List.mem_append_right _ (List.mem_singleton.mpr rfl)
  have i1 := sourceLoop_ok _ hps h1 (StateInv.init _)
  have i2 := consumerLoop_ok _ hcs h2 i1.1
  have hle := i2.1.length_le
  simp only [List.length_append, List.length_map, List.length_singleton] at hle
  have := i2.2
  omega

/-- When the first loop returns, every producer is recorded under its name with its own
`Produces` map. -/
theorem sourceLoop_records_all {ρ : RangeOrder} {ps : List DataSourcePlugin}
    {st1 : BuildState}
    (h1 : sourceLoop ρ ps ps.length { heap := [], baseSources := [], sourceAdded := [] } =
      some (.ok st1)) :
    st1.sourceAdded.length = ps.length ∧
    ∀ p ∈ ps, ∃ ptr node, (p.Name, ptr) ∈ st1.sourceAdded ∧ st1.heap[ptr]? = some node ∧
      node.Produces = p.Produces := by
  have i1 := sourceLoop_ok (ps.map (·.Name)) (fun p hp => List.mem_map_of_mem _ hp) h1
    (StateInv.init _)
  have o1 : OriginInv ps st1 :=
    sourceLoop_keeps (OriginInv ps) (fun st dsp hd hst => hst.origin_sourceStep hd) h1
      (OriginInv.origin_init ps)
  have hle := i1.1.length_le
  simp only [List.length_map] at hle
  have hlen : st1.sourceAdded.length = ps.length := le_antisymm hle i1.2
  have hsub : (mapKeys st1.sourceAdded).Subperm (ps.map (·.Name)) :=
    List.Nodup.subperm i1.1.2.2.1 i1.1.2.2.2
  have hperm : (mapKeys st1.sourceAdded).Perm (ps.map (·.Name)) :=
    hsub.perm_of_length_le (by simp [mapKeys, hlen])
  have hnd : (ps.map (·.Name)).Nodup := hperm.nodup_iff.mp i1.1.2.2.1
  refine ⟨hlen, fun p hp => ?_⟩
  have hkey : p.Name ∈ mapKeys st1.sourceAdded :=
    hperm.mem_iff.mpr (List.mem_map_of_mem _ hp)
  obtain ⟨e, he, hname⟩ := List.mem_map.mp hkey
  obtain ⟨node, dsp, hn, hd, hdn, hprod⟩ :=
    o1 e.1 e.2 (mapGet_of_mem i1.1.2.2.1 he)
  have hdp : dsp = p := List.inj_on_of_nodup_map hnd hd hp (hdn.trans hname)
  subst hdp
  refine ⟨e.2, node, ?_, hn, hprod⟩
  rw [hdn]
  exact he

theorem consumerStep_promoted {ρ : RangeOrder} {st : BuildState} {dcp : DataConsumingPlugin}
    (h : (consumerStep ρ st dcp).sourceAdded.length ≠ st.sourceAdded.length) :
    (resolveDeps ρ st (entries dcp.Consumes)).1 = true := by
  unfold consumerStep at h
  split at h
  · exact absurd rfl h
  · simp only at h
    split at h
    · next hr => exact hr
    · exact absurd rfl h

theorem consumerLoop_single_promoted {ρ : RangeOrder} {ps : List DataSourcePlugin}
    {dcp : DataConsumingPlugin} {st1 st2 : BuildState}
    (hlen : st1.sourceAdded.length = ps.length)
    (h : consumerLoop ρ ps [dcp] 1 st1 = some (.ok st2)) :
    (resolveDeps ρ st1 (entries dcp.Consumes)).1 = true := by
  unfold consumerLoop at h
  rw [if_pos (by simp [hlen])] at h
  simp only [List.foldl_cons, List.foldl_nil] at h
  split at h
  · simp at h
  · next hne => exact consumerStep_promoted hne

/-- What a returned graph tells about an input with a consumer: there is one consumer, one
producer, and every producer produces "kv-cache-utilization". -/
theorem graph_with_consumer {ρ : RangeOrder} (hρ : ρ.Fair) {ps : List DataSourcePlugin}
    {cs : List DataConsumingPlugin} {g : DataGraph}
    (h : produceDataGraph ρ ps cs = some (.ok g)) (hcs : cs ≠ []) :
    cs.length = 1 ∧ ps.length = 1 ∧
      ∀ p ∈ ps, "kv-cache-utilization" ∈ mapKeys (entries p.Produces) := by
  have hle := consumers_le_one h
  obtain ⟨st1, st2, hv, h1, h2, -⟩ := produceDataGraph_ok h
  match cs, hcs, hle with
  | [dcp], _, _ =>
    obtain ⟨hlen, hall⟩ := sourceLoop_records_all h1
    have hr := consumerLoop_single_promoted hlen h2
    have hscan := resolveDeps_true hρ hr ("kv-cache-utilization", .float32)
      (by simp [entries, DataConsumingPlugin.Consumes])
    have hkey : ∀ p ∈ ps, "kv-cache-utilization" ∈ mapKeys (entries p.Produces) := by
      intro p hp
      obtain ⟨ptr, node, hmem, hnode, hprod⟩ := hall p hp
      have := hscan (p.Name, ptr) hmem
      simp only [producesKey, List.get?_eq_getElem?, hnode, hprod] at this
      exact (mapHas_iff _ _).mp this
    refine ⟨rfl, ?_, hkey⟩
    have hprod := (validate_ok hρ hv).1 ("kv-cache-utilization", .float32)
      (by simp [declaredConsumed, entries, DataConsumingPlugin.Consumes])
    match ps, hprod, hkey with
    | [], hprod, _ => simp [declaredProduced] at hprod
    | [_], _, _ => rfl
    | a :: b :: rest, _, hkey =>
      exfalso
      have hshared : SharedProducedKey (a :: b :: rest) :=
        ⟨0, 1, a, b, "kv-cache-utilization", by decide, rfl, rfl,
          hkey a (List.mem_cons_self _ _),
          hkey b (List.mem_cons_of_mem _ (List.mem_cons_self _ _))⟩
      exact hshared.not_distinct_of_shared (validate_ok hρ hv).2.1

/-- C15: when `produceDataGraph` returns a graph for a non-empty consumer list, there is
exactly one consumer and exactly one producer, and every producer produces
"kv-cache-utilization"; for every producer list, two or more consumers yield an error. -/
theorem consumer_needs_single_producer (ρ : RangeOrder) (hρ : ρ.Fair)
    (ps : List DataSourcePlugin) (cs : List DataConsumingPlugin) :
    (∀ g, produceDataGraph ρ ps cs = some (.ok g) → cs ≠ [] →
      cs.length = 1 ∧ ps.length = 1 ∧
        ∀ p ∈ ps, "kv-cache-utilization" ∈ mapKeys (entries p.Produces)) ∧
    (2 ≤ cs.length → ∃ e, produceDataGraph ρ ps cs = some (.error e)) := by
  refine ⟨fun g h hcs => graph_with_consumer hρ h hcs, fun h2 => ?_⟩
  obtain ⟨r, hr⟩ := produceDataGraph_total ρ ps cs
  cases r with
  | error e => exact ⟨e, hr⟩
  | ok g =>
    have := consumers_le_one hr
    omega

/-- C15 at the stored range order: the producer `cacheSource` with one scoring plugin gives
a graph, with two scoring plugins the error of the second loop, and so do two producers with
one scoring plugin. -/
theorem consumer_needs_single_producer_witness :
    RangeOrder.stored.Fair ∧
    produceDataGraph .stored [cacheSource] [{}] = some (.ok cacheGraph) ∧
    produceDataGraph .stored [cacheSource] [{}, {}] = some (.error .circularConsumers) ∧
    produceDataGraph .stored [cacheSource, rootA] [{}] = some (.error .circularConsumers) ∧
    ([({} : DataConsumingPlugin)].length = 1 ∧ [cacheSource].length = 1 ∧
      ∀ p ∈ [cacheSource], "kv-cache-utilization" ∈ mapKeys (entries p.Produces)) :=
  ⟨RangeOrder.fair_stored, rfl, rfl, rfl,
    (consumer_needs_single_producer .stored RangeOrder.fair_stored [cacheSource] [{}]).1
      cacheGraph rfl (by simp)⟩

end Gateway
